import Mathlib

set_option maxRecDepth 100000

/-!
Verification of the eCFR scraper's ingestion pipeline against its
natural-language specification.  The Python source (src/scraper.py,
src/database.py, config/settings.py) is shallowly embedded below:
pure text processing becomes Lean functions over `List Char` / `String`,
the XML element tree becomes the inductive `Elem`, the SQLite store
becomes the explicit record `DB`, and fallible operations return
`Except` / `Option`.
-/

namespace ECFR

/-! ## Character classes (Python `re` ASCII semantics) -/

/-- Python's `\s` class over ASCII: space, tab, newline, carriage return,
vertical tab, form feed.  Used by `re.sub(r'\s+', ...)`, `str.strip()`. -/
def isSpacePy (c : Char) : Bool :=
  c = ' ' || c = '\t' || c = '\n' || c = '\r' || c = '\x0b' || c = '\x0c'

/-- The `[\d.]` character class of the section-number regexes. -/
def isDigitDot (c : Char) : Bool := c.isDigit || c = '.'

/-- The `[IVXLCDM]` class under `re.IGNORECASE` (chapter labels). -/
def isRomanCI (c : Char) : Bool :=
  ['I','V','X','L','C','D','M','i','v','x','l','c','d','m'].contains c

/-- The `[A-Z]` class under `re.IGNORECASE` (subchapter letters). -/
def isUpperCI (c : Char) : Bool := c.isUpper || c.isLower

/-! ## `str.strip` and `" ".join` -/

/-- Drop the longest run of characters satisfying `p` from the end. -/
def dropEndWhile (p : Char → Bool) : List Char → List Char
  | [] => []
  | c :: cs =>
    let r := dropEndWhile p cs
    if r.isEmpty && p c then [] else c :: r

/-- `str.strip()`: drop Python whitespace from both ends. -/
def stripL (l : List Char) : List Char :=
  dropEndWhile isSpacePy (l.dropWhile isSpacePy)

/-- String-level `str.strip()`. -/
def pyStrip (s : String) : String := ⟨stripL s.data⟩

/-- `sep.join(parts)`: separator inserted between every adjacent pair,
including empty parts (so empty fragments produce doubled separators,
exactly as in Python). -/
def joinWith (sep : String) : List String → String
  | [] => ""
  | [s] => s
  | s :: t :: rest => s ++ sep ++ joinWith sep (t :: rest)

/-! ## `str.replace` and `re.sub(r'\s+', ' ', ...)` -/

/-- Decidable list-prefix test used by `replaceL`. -/
def isPre : List Char → List Char → Bool
  | [], _ => true
  | _ :: _, [] => false
  | a :: as, b :: bs => a == b && isPre as bs

/-- The scan of Python `str.replace(pat, rep)`: leftmost,
non-overlapping, the replacement itself is not rescanned.  The fuel
argument only bounds the recursion; with fuel at least the input length
(as `replaceL` supplies, each step consuming at least one character) the
zero-fuel branch is never reached. -/
def replaceGo (pat rep : List Char) : Nat → List Char → List Char
  | 0, l => l
  | _ + 1, [] => []
  | fuel + 1, c :: cs =>
    if pat ≠ [] ∧ isPre pat (c :: cs) then
      rep ++ replaceGo pat rep fuel (List.drop pat.length (c :: cs))
    else
      c :: replaceGo pat rep fuel cs

/-- Python `str.replace(pat, rep)`. -/
def replaceL (pat rep l : List Char) : List Char := replaceGo pat rep l.length l

/-- `re.sub(r'\s+', ' ', text)`: every maximal whitespace run collapses to
a single `' '` (implemented by dropping a whitespace character that is
followed by another whitespace character, normalising the survivor). -/
def collapseWs : List Char → List Char
  | [] => []
  | [c] => if isSpacePy c then [' '] else [c]
  | c₁ :: c₂ :: cs =>
    if isSpacePy c₁ && isSpacePy c₂ then collapseWs (c₂ :: cs)
    else (if isSpacePy c₁ then ' ' else c₁) :: collapseWs (c₂ :: cs)

/-- The entity-replacement chain of `_clean_text`, in source order:
`&amp;` first, then `&lt;`, `&gt;`, `&quot;`, `&apos;`. -/
def replaceEnts (l : List Char) : List Char :=
  replaceL "&apos;".data ['\''] <|
  replaceL "&quot;".data ['"'] <|
  replaceL "&gt;".data ['>'] <|
  replaceL "&lt;".data ['<'] <|
  replaceL "&amp;".data ['&'] l

/-- `ECFRScraper._clean_text` on a non-None string: empty in, empty out;
otherwise collapse whitespace runs, decode the five XML escapes, strip. -/
def cleanTextL (l : List Char) : List Char :=
  if l.isEmpty then [] else stripL (replaceEnts (collapseWs l))

/-- String-level `_clean_text`. -/
def cleanText (s : String) : String := ⟨cleanTextL s.data⟩

/-- `_clean_text` at a call site guarded by `if x else ""`: Python `None`
and the empty string are both falsy and yield `""`. -/
def cleanTextOpt (o : Option String) : String :=
  match o with
  | none => ""
  | some s => if s = "" then "" else cleanText s

/-! ## Regex matchers of the structural parser

Each embeds one concrete pattern of src/scraper.py.  `re.search` scans
left to right; since no pattern here can benefit from backtracking
(the classes after each greedy quantifier are disjoint from it), the
straightforward greedy scan is an exact model. -/

/-- Case-insensitive match of a literal word at the head of the input;
returns the remainder on success. -/
def matchWordCI : List Char → List Char → Option (List Char)
  | [], s => some s
  | _ :: _, [] => none
  | w :: ws, c :: cs => if w.toUpper == c.toUpper then matchWordCI ws cs else none

/-- One anchored attempt of `WORD\s+(CLASS+)` (IGNORECASE): the literal
word, at least one whitespace character, then a non-empty greedy run of
the class, returned as the captured group. -/
def attemptWordRun (word : List Char) (classP : Char → Bool) (s : List Char) :
    Option (List Char) :=
  match matchWordCI word s with
  | none => none
  | some rest =>
    if (rest.takeWhile isSpacePy).isEmpty then none
    else
      let cap := (rest.dropWhile isSpacePy).takeWhile classP
      if cap.isEmpty then none else some cap

/-- `re.search` of `WORD\s+(CLASS+)`: scan for the leftmost position with
a match, returning the captured run. -/
def searchWordRun (word : List Char) (classP : Char → Bool) : List Char → Option (List Char)
  | [] => none
  | c :: cs =>
    match attemptWordRun word classP (c :: cs) with
    | some cap => some cap
    | none => searchWordRun word classP cs

/-- One anchored attempt of `WORD\s+(CLASS)` (IGNORECASE), capturing a
single class character, as in `SUBCHAPTER\s+([A-Z])`. -/
def attemptWordOne (word : List Char) (classP : Char → Bool) (s : List Char) :
    Option Char :=
  match matchWordCI word s with
  | none => none
  | some rest =>
    if (rest.takeWhile isSpacePy).isEmpty then none
    else
      match rest.dropWhile isSpacePy with
      | [] => none
      | d :: _ => if classP d then some d else none

/-- `re.search` of `WORD\s+(CLASS)` capturing one character. -/
def searchWordOne (word : List Char) (classP : Char → Bool) : List Char → Option Char
  | [] => none
  | c :: cs =>
    match attemptWordOne word classP (c :: cs) with
    | some d => some d
    | none => searchWordOne word classP cs

/-- One anchored attempt of `§\s*([\d.]+)`: the section mark, optional
whitespace, then a non-empty run of digits and dots (the capture). -/
def attemptSecNum (s : List Char) : Option (List Char) :=
  match s with
  | [] => none
  | c :: cs =>
    if c = '§' then
      let cap := (cs.dropWhile isSpacePy).takeWhile isDigitDot
      if cap.isEmpty then none else some cap
    else none

/-- `re.search(r'§\s*([\d.]+)', text)`. -/
def searchSecNum : List Char → Option (List Char)
  | [] => none
  | c :: cs =>
    match attemptSecNum (c :: cs) with
    | some cap => some cap
    | none => searchSecNum cs

/-- One anchored attempt of the full pattern `§\s*[\d.]+\s*` used by
`re.sub` in `_process_section`; returns the remainder after the match. -/
def matchSecRefAt : List Char → Option (List Char)
  | [] => none
  | c :: cs =>
    if c = '§' then
      let r₁ := cs.dropWhile isSpacePy
      if (r₁.takeWhile isDigitDot).isEmpty then none
      else some ((r₁.dropWhile isDigitDot).dropWhile isSpacePy)
    else none

theorem length_dropWhile_le (p : Char → Bool) (l : List Char) :
    (l.dropWhile p).length ≤ l.length := by
  induction l with
  | nil => simp [List.dropWhile]
  | cons c cs ih =>
    by_cases h : p c
    · simp only [List.dropWhile, h]
      exact Nat.le_succ_of_le ih
    · simp [List.dropWhile, h]

theorem matchSecRefAt_length {c : Char} {cs r : List Char}
    (h : matchSecRefAt (c :: cs) = some r) : r.length ≤ cs.length := by
  simp only [matchSecRefAt] at h
  split at h
  · split at h
    · cases h
    · obtain rfl := Option.some.inj h
      calc (((cs.dropWhile isSpacePy).dropWhile isDigitDot).dropWhile isSpacePy).length
          ≤ ((cs.dropWhile isSpacePy).dropWhile isDigitDot).length :=
            length_dropWhile_le _ _
        _ ≤ (cs.dropWhile isSpacePy).length := length_dropWhile_le _ _
        _ ≤ cs.length := length_dropWhile_le _ _
  · cases h

/-- The scan of `re.sub(r'§\s*[\d.]+\s*', '', text)`: every leftmost
non-overlapping match is removed; scanning resumes after the removed
material.  As in `replaceGo`, the fuel only bounds the recursion and is
never exhausted when it starts at the input length. -/
def subSecGo : Nat → List Char → List Char
  | 0, l => l
  | _ + 1, [] => []
  | fuel + 1, c :: cs =>
    match matchSecRefAt (c :: cs) with
    | some rest => subSecGo fuel rest
    | none => c :: subSecGo fuel cs

/-- `re.sub(r'§\s*[\d.]+\s*', '', text)`. -/
def subSecRefs (l : List Char) : List Char := subSecGo l.length l

/-- `int()` on a non-empty digit string (regex group `\d+` / `isdigit()`). -/
def natOfDigits (l : List Char) : Nat :=
  l.foldl (fun a c => a * 10 + (c.toNat - '0'.toNat)) 0

/-! ## The parsed XML element tree (`xml.etree.ElementTree`)

An element has a tag, attributes, optional leading text, children in
document order, and optional tail text (the text following its closing
tag inside the parent).  Text is already entity-decoded by the XML
parser; the strings stored here model the `.text` / `.tail` values the
Python code sees. -/

inductive Elem where
  | mk (tag : String) (attrs : List (String × String)) (text : Option String)
       (children : List Elem) (tailText : Option String)

def Elem.tag : Elem → String
  | .mk t _ _ _ _ => t

def Elem.attrs : Elem → List (String × String)
  | .mk _ a _ _ _ => a

def Elem.text : Elem → Option String
  | .mk _ _ tx _ _ => tx

def Elem.children : Elem → List Elem
  | .mk _ _ _ cs _ => cs

def Elem.tailText : Elem → Option String
  | .mk _ _ _ _ tl => tl

/-- `element.get(key)`: attribute lookup. -/
def attrGet (e : Elem) (k : String) : Option String :=
  (e.attrs.find? (fun p => p.1 == k)).map (·.2)

/-- `element.find(tag)`: first direct child with the given tag. -/
def findChild (e : Elem) (t : String) : Option Elem :=
  e.children.find? (fun c => c.tag == t)

mutual
/-- `element.findall('.//X[...]')` restricted to a predicate: all proper
descendants satisfying it, in document order. -/
def findAllDesc (p : Elem → Bool) : Elem → List Elem
  | .mk _ _ _ cs _ => findAllDescList p cs

def findAllDescList (p : Elem → Bool) : List Elem → List Elem
  | [] => []
  | c :: cs => (if p c then [c] else []) ++ findAllDesc p c ++ findAllDescList p cs
end

/-- `element.find('.//X')`: first matching proper descendant. -/
def findFirstDesc (p : Elem → Bool) (e : Elem) : Option Elem :=
  (findAllDesc p e).head?

/-- `element.findall('./X[...]')`: direct children satisfying the predicate. -/
def findDirect (p : Elem → Bool) (e : Elem) : List Elem :=
  e.children.filter p

/-- The predicate of a `TAG[@TYPE="VALUE"]` selector. -/
def isTyped (tg ty : String) (e : Elem) : Bool :=
  e.tag == tg && attrGet e "TYPE" == some ty

mutual
/-- `ECFRScraper._extract_element_text`: the element's own text, then for
each child its recursive flattening followed by its tail text, all
joined with single spaces and stripped.  Empty fragments still receive
separators (Python `" ".join`). -/
def extractElementText : Elem → String
  | .mk _ _ tx cs _ => pyStrip (joinWith " " ((tx.getD "") :: childTextParts cs))

def childTextParts : List Elem → List String
  | [] => []
  | c :: cs => extractElementText c :: (c.tailText.getD "") :: childTextParts cs
end

/-- The paragraph fragments of `_extract_section_content`: a paragraph's
flattened text is kept (stripped) only when its strip is non-empty. -/
def contentParts : List Elem → List String
  | [] => []
  | p :: ps =>
    let t := extractElementText p
    if pyStrip t = "" then contentParts ps else pyStrip t :: contentParts ps

/-- `ECFRScraper._extract_section_content`: flatten every descendant `P`
element and join the kept fragments with blank lines. -/
def extract_section_content (e : Elem) : String :=
  joinWith "\n\n" (contentParts (findAllDesc (fun c => c.tag == "P") e))

/-- `ECFRScraper._extract_authority`: first descendant `AUTH`, flattened
and cleaned; `None` when absent. -/
def extract_authority (e : Elem) : Option String :=
  (findFirstDesc (fun c => c.tag == "AUTH") e).map
    (fun a => cleanText (extractElementText a))

/-- `ECFRScraper._extract_source`: first descendant `SOURCE`, flattened
and cleaned; `None` when absent. -/
def extract_source (e : Elem) : Option String :=
  (findFirstDesc (fun c => c.tag == "SOURCE") e).map
    (fun a => cleanText (extractElementText a))

/-- The section number of `_process_section`: the `N` attribute (default
`''`), with a leading `"§ "` stripped; if that leaves the empty string,
fall back to `§\s*([\d.]+)` searched in the cleaned `HEAD` text; an empty
final result means failure (`None`). -/
def sectionNumberOf (e : Elem) : Option String :=
  let n₀ := (attrGet e "N").getD ""
  let n₁ := if n₀.startsWith "§ " then pyStrip (n₀.drop 2) else n₀
  let n₂ :=
    if n₁ = "" then
      match findChild e "HEAD" with
      | none => n₁
      | some h =>
        match searchSecNum (cleanTextOpt h.text).data with
        | some cap => (⟨cap⟩ : String)
        | none => n₁
    else n₁
  if n₂ = "" then none else some n₂

/-- The heading of `_process_section`: the cleaned `HEAD` text with every
`§\s*[\d.]+\s*` match removed, then stripped; `""` when `HEAD` is absent. -/
def sectionHeadingOf (e : Elem) : String :=
  match findChild e "HEAD" with
  | none => ""
  | some h => pyStrip ⟨subSecRefs (cleanTextOpt h.text).data⟩

/-! ## Configuration constants (config/settings.py) -/

def MAX_RETRIES : Nat := 3
def SKIP_EXISTING : Bool := true
def VALIDATE_XML : Bool := true

/-- `CFR_TITLES = list(range(1, 51))`. -/
def CFR_TITLES : List Int := (List.range 50).map (fun i => (i : Int) + 1)

/-! ## The persistent store (src/database.py over SQLite)

Each table is a list of rows in rowid order; a fresh rowid is one more
than the current row count (rows are never deleted by these operations,
matching SQLite's assignment).  `SELECT ... fetchone()` is `List.find?`.
Timestamps (`datetime.now()`) are opaque `Nat` values threaded in. -/

structure TitleRow where
  id : Nat
  title_number : Int
  title_name : String
  last_updated : Nat
deriving DecidableEq, Repr

structure ChapterRow where
  id : Nat
  title_id : Nat
  chapter_number : String
  chapter_name : String
deriving DecidableEq, Repr

structure SubchapterRow where
  id : Nat
  chapter_id : Nat
  subchapter_letter : String
  subchapter_name : String
deriving DecidableEq, Repr

structure PartRow where
  id : Nat
  chapter_id : Nat
  subchapter_id : Option Nat
  part_number : Nat
  part_name : String
  authority_citation : Option String
  source_citation : Option String
deriving DecidableEq, Repr

structure SectionRow where
  id : Nat
  part_id : Nat
  section_number : String
  section_heading : String
  section_content : String
  authority_citation : Option String
  source_citation : Option String
  xml_node_id : Option String
deriving DecidableEq, Repr

structure MetaRow where
  title_number : Int
  last_scraped : Nat
  file_size : Option Nat
  file_hash : Option String
  scraping_status : String
  error_message : Option String
  records_processed : Nat
deriving DecidableEq, Repr

structure DB where
  titles : List TitleRow
  chapters : List ChapterRow
  subchapters : List SubchapterRow
  parts : List PartRow
  sections : List SectionRow
  metadata : List MetaRow
deriving DecidableEq, Repr

def emptyDB : DB := ⟨[], [], [], [], [], []⟩

/-- `ECFRDatabase.get_or_create_title`: look up by `title_number`; on a
miss insert a new row (with `last_updated = now`) and return its rowid. -/
def get_or_create_title (db : DB) (n : Int) (name : String) (now : Nat) : Nat × DB :=
  match db.titles.find? (fun r => r.title_number == n) with
  | some r => (r.id, db)
  | none =>
    let id := db.titles.length + 1
    (id, { db with titles := db.titles ++ [⟨id, n, name, now⟩] })

/-- `ECFRDatabase.get_or_create_chapter`: keyed by `(title_id,
chapter_number)`. -/
def get_or_create_chapter (db : DB) (tid : Nat) (num name : String) : Nat × DB :=
  match db.chapters.find? (fun r => r.title_id == tid && r.chapter_number == num) with
  | some r => (r.id, db)
  | none =>
    let id := db.chapters.length + 1
    (id, { db with chapters := db.chapters ++ [⟨id, tid, num, name⟩] })

/-- `ECFRDatabase.get_or_create_subchapter`: keyed by `(chapter_id,
subchapter_letter)`. -/
def get_or_create_subchapter (db : DB) (cid : Nat) (letter name : String) : Nat × DB :=
  match db.subchapters.find?
      (fun r => r.chapter_id == cid && r.subchapter_letter == letter) with
  | some r => (r.id, db)
  | none =>
    let id := db.subchapters.length + 1
    (id, { db with subchapters := db.subchapters ++ [⟨id, cid, letter, name⟩] })

/-- `ECFRDatabase.get_or_create_part`: looked up by `(chapter_id,
part_number)` only — the `subchapter_id` argument takes part in the
insert but not in the lookup, and nothing is written on a hit. -/
def get_or_create_part (db : DB) (cid : Nat) (scid : Option Nat) (pn : Nat)
    (name : String) (auth src : Option String) : Nat × DB :=
  match db.parts.find? (fun r => r.chapter_id == cid && r.part_number == pn) with
  | some r => (r.id, db)
  | none =>
    let id := db.parts.length + 1
    (id, { db with parts := db.parts ++ [⟨id, cid, scid, pn, name, auth, src⟩] })

/-- `ECFRDatabase.insert_section`: look up by `(part_id, section_number)`;
on a hit, `UPDATE` the mutable fields of the row with that rowid in
place; on a miss, insert a new row. -/
def insert_section (db : DB) (pid : Nat) (num heading content : String)
    (auth src node : Option String) : Nat × DB :=
  match db.sections.find? (fun r => r.part_id == pid && r.section_number == num) with
  | some r =>
    (r.id,
     { db with sections := db.sections.map (fun s =>
         if s.id == r.id then
           { s with section_heading := heading, section_content := content,
                    authority_citation := auth, source_citation := src,
                    xml_node_id := node }
         else s) })
  | none =>
    let id := db.sections.length + 1
    (id, { db with sections :=
             db.sections ++ [⟨id, pid, num, heading, content, auth, src, node⟩] })

/-- `ECFRDatabase.update_scraping_metadata`.
Modelled from the spec: `database_schema.sql` is not under src/; §3 of
the spec states that an Ingestion Record exists at most once per Unit and
that status transitions are append-via-replace, so `INSERT OR REPLACE`
deletes any record with the same unit number and appends the new one. -/
def update_scraping_metadata (db : DB) (now : Nat) (n : Int) (status : String)
    (fileSize : Option Nat) (fileHash : Option String)
    (errMsg : Option String) (records : Nat) : DB :=
  { db with metadata :=
      db.metadata.filter (fun r => !(r.title_number == n)) ++
        [⟨n, now, fileSize, fileHash, status, errMsg, records⟩] }

/-- `ECFRDatabase.get_scraping_metadata`: row lookup by unit number. -/
def get_scraping_metadata (db : DB) (n : Int) : Option MetaRow :=
  db.metadata.find? (fun r => r.title_number == n)

/-! ## Structural parser drivers (`ECFRScraper._process_*`) -/

/-- Chapter label extraction: `CHAPTER\s+([IVXLCDM]+)` (IGNORECASE) in the
cleaned heading, else the `N` attribute when truthy. -/
def chapterNumberOf (text : String) (nAttr : Option String) : Option String :=
  match searchWordRun "CHAPTER".data isRomanCI text.data with
  | some cap => some ⟨cap⟩
  | none =>
    match nAttr with
    | none => none
    | some a => if a = "" then none else some a

/-- Subchapter letter extraction: `SUBCHAPTER\s+([A-Z])` (IGNORECASE),
capturing a single character, else the `N` attribute when truthy. -/
def subchapterLetterOf (text : String) (nAttr : Option String) : Option String :=
  match searchWordOne "SUBCHAPTER".data isUpperCI text.data with
  | some d => some ⟨[d]⟩
  | none =>
    match nAttr with
    | none => none
    | some a => if a = "" then none else some a

/-- Part number extraction: `PART\s+(\d+)` (IGNORECASE) parsed as an
integer, else the `N` attribute when non-empty and all digits. -/
def partNumberOf (text : String) (nAttr : Option String) : Option Nat :=
  match searchWordRun "PART".data Char.isDigit text.data with
  | some cap => some (natOfDigits cap)
  | none =>
    match nAttr with
    | none => none
    | some a =>
      if a ≠ "" ∧ a.data.all Char.isDigit then some (natOfDigits a.data) else none

/-- `ECFRScraper._process_section`: extract number, heading, content,
citations and node id, then upsert; `false` when no section number can
be extracted. -/
def process_section (e : Elem) (pid : Nat) (db : DB) : Bool × DB :=
  match sectionNumberOf e with
  | none => (false, db)
  | some num =>
    (true, (insert_section db pid num (sectionHeadingOf e)
      (extract_section_content e) (extract_authority e) (extract_source e)
      (attrGet e "NODE")).2)

/-- The section loop of `_process_part`: count successful sections. -/
def process_sections (es : List Elem) (pid : Nat) (db : DB) : Nat × DB :=
  match es with
  | [] => (0, db)
  | e :: rest =>
    let (ok, db₁) := process_section e pid db
    let (n, db₂) := process_sections rest pid db₁
    ((if ok then 1 else 0) + n, db₂)

/-- `ECFRScraper._process_part`: heading, part number (with fallback),
citations, get-or-create, then every descendant `DIV8[@TYPE="SECTION"]`;
`0` when the part cannot be classified. -/
def process_part (e : Elem) (cid : Nat) (scid : Option Nat) (db : DB) : Nat × DB :=
  match findChild e "HEAD" with
  | none => (0, db)
  | some hd =>
    match partNumberOf (cleanTextOpt hd.text) (attrGet e "N") with
    | none => (0, db)
    | some pn =>
      match get_or_create_part db cid scid pn (cleanTextOpt hd.text)
          (extract_authority e) (extract_source e) with
      | (pid, db₁) => process_sections (findAllDesc (isTyped "DIV8" "SECTION") e) pid db₁

/-- A list of part elements processed in order, counts summed. -/
def process_parts (es : List Elem) (cid : Nat) (scid : Option Nat) (db : DB) :
    Nat × DB :=
  match es with
  | [] => (0, db)
  | e :: rest =>
    let (n, db₁) := process_part e cid scid db
    let (m, db₂) := process_parts rest cid scid db₁
    (n + m, db₂)

/-- `ECFRScraper._process_subchapter`: heading, letter (with fallback),
get-or-create; `None` when the subchapter cannot be classified. -/
def process_subchapter (e : Elem) (cid : Nat) (db : DB) : Option Nat × DB :=
  match findChild e "HEAD" with
  | none => (none, db)
  | some hd =>
    match subchapterLetterOf (cleanTextOpt hd.text) (attrGet e "N") with
    | none => (none, db)
    | some letter =>
      match get_or_create_subchapter db cid letter (cleanTextOpt hd.text) with
      | (sid, db₁) => (some sid, db₁)

/-- The subchapter loop of `_process_chapter_content`: each classified
subchapter is followed by its descendant `DIV5[@TYPE="PART"]` elements
(`_process_subchapter_content`). -/
def process_subchapters (es : List Elem) (cid : Nat) (db : DB) : Nat × DB :=
  match es with
  | [] => (0, db)
  | e :: rest =>
    match process_subchapter e cid db with
    | (some sid, db₁) =>
      match process_parts (findAllDesc (isTyped "DIV5" "PART") e) cid (some sid) db₁ with
      | (n, db₂) =>
        match process_subchapters rest cid db₂ with
        | (m, db₃) => (n + m, db₃)
    | (none, db₁) =>
      match process_subchapters rest cid db₁ with
      | (m, db₂) => (0 + m, db₂)

/-- `ECFRScraper._process_chapter`: heading, label (with fallback),
get-or-create; `None` when the chapter cannot be classified. -/
def process_chapter (e : Elem) (tid : Nat) (db : DB) : Option Nat × DB :=
  match findChild e "HEAD" with
  | none => (none, db)
  | some hd =>
    match chapterNumberOf (cleanTextOpt hd.text) (attrGet e "N") with
    | none => (none, db)
    | some num =>
      match get_or_create_chapter db tid num (cleanTextOpt hd.text) with
      | (cid, db₁) => (some cid, db₁)

/-- `ECFRScraper._process_chapter_content`: all descendant subchapters,
then parts directly under the chapter (recorded with no subchapter). -/
def process_chapter_content (e : Elem) (cid : Nat) (db : DB) : Nat × DB :=
  match process_subchapters (findAllDesc (isTyped "DIV4" "SUBCHAP") e) cid db with
  | (n₁, db₁) =>
    match process_parts (findDirect (isTyped "DIV5" "PART") e) cid none db₁ with
    | (n₂, db₂) => (n₁ + n₂, db₂)

/-- The chapter loop of `parse_title_xml`: content is processed only for
chapters whose `_process_chapter` returned an id. -/
def process_chapters (es : List Elem) (tid : Nat) (db : DB) : Nat × DB :=
  match es with
  | [] => (0, db)
  | e :: rest =>
    match process_chapter e tid db with
    | (some cid, db₁) =>
      match process_chapter_content e cid db₁ with
      | (n, db₂) =>
        match process_chapters rest tid db₂ with
        | (m, db₃) => (n + m, db₃)
    | (none, db₁) =>
      match process_chapters rest tid db₁ with
      | (m, db₂) => (0 + m, db₂)

/-- The entity-extraction body of `ECFRScraper.parse_title_xml`: title
name from the first descendant `HEAD` (else `TITLE`, else a synthetic
name), then every descendant `DIV3[@TYPE="CHAPTER"]`. -/
def titleNameOf (root : Elem) (n : Int) : String :=
  match findFirstDesc (fun e => e.tag == "HEAD") root with
  | some el => cleanTextOpt el.text
  | none =>
    match findFirstDesc (fun e => e.tag == "TITLE") root with
    | some el => cleanTextOpt el.text
    | none => "Title " ++ toString n

def parse_title_core (root : Elem) (n : Int) (now : Nat) (db : DB) : Nat × DB :=
  match get_or_create_title db n (titleNameOf root n) now with
  | (tid, db₁) => process_chapters (findAllDesc (isTyped "DIV3" "CHAPTER") root) tid db₁

/-! ## Transactions (`sqlite3` implicit transaction + explicit commit)

The Python driver opens an implicit transaction on the first write and
persists it only at `connection.commit()` (end of a successful
`parse_title_xml`).  `Conn` carries the last committed snapshot and the
uncommitted working state. -/

structure Conn where
  committed : DB
  current : DB
deriving DecidableEq, Repr

/-- `ECFRScraper.parse_title_xml`: mark the Ingestion Record
`in_progress`, parse the document; on success mark it `completed` and
commit; on a parse failure mark it `failed` with the error detail (still
uncommitted) and propagate a terminal error — the committed snapshot is
not touched. -/
def parse_title_xml (doc : Except String Elem) (n : Int) (now : Nat)
    (fileSize : Nat) (fileHash : String) (c : Conn) : Except String Nat × Conn :=
  let db₀ := update_scraping_metadata c.current now n "in_progress"
               (some fileSize) (some fileHash) none 0
  match doc with
  | .error e =>
    let dbf := update_scraping_metadata db₀ now n "failed" none none (some e) 0
    (.error ("XML parsing failed: " ++ e), { c with current := dbf })
  | .ok root =>
    let (records, db₁) := parse_title_core root n now db₀
    let db₂ := update_scraping_metadata db₁ now n "completed"
                 (some fileSize) (some fileHash) none records
    (.ok records, ⟨db₂, db₂⟩)

/-! ## Fetcher (`ECFRScraper._make_request`, `download_title_xml`) -/

/-- The outcome of one HTTP attempt: a response, or any
`requests.RequestException` (connection error, timeout, or the
non-success status raised by `raise_for_status`). -/
inductive AttemptOutcome where
  | success (resp : Nat)
  | failure (exc : String)

/-- The retry loop of `_make_request`: `for attempt in range(MAX_RETRIES)`
returns on the first success and remembers the last exception; when the
range is exhausted a terminal error carrying the last exception is
raised.  The second component counts attempts actually made. -/
def make_request_go (attempts : Nat → AttemptOutcome) :
    Nat → Nat → Option String → Nat → Except (Option String) Nat × Nat
  | 0, _, last, made => (.error last, made)
  | r + 1, i, last, made =>
    match attempts i with
    | .success resp => (.ok resp, made + 1)
    | .failure e => make_request_go attempts r (i + 1) (some e) (made + 1)

/-- `ECFRScraper._make_request`. -/
def make_request (attempts : Nat → AttemptOutcome) : Except (Option String) Nat × Nat :=
  make_request_go attempts MAX_RETRIES 0 none 0

/-- File bytes on disk. -/
abbrev FileData := List Nat

/-- `ECFRScraper.download_title_xml`: reuse the existing file unless
forced (skip-existing policy), otherwise fetch; any fetch error becomes
a terminal error, and (with validation enabled) a malformed download is
a terminal error. -/
def download_title_xml (force fileExists : Bool) (cached : FileData)
    (fetch : Except String FileData) (wellFormed : FileData → Bool) :
    Except String FileData :=
  if fileExists && !force && SKIP_EXISTING then .ok cached
  else
    match fetch with
    | .error e => .error ("Download failed: " ++ e)
    | .ok bytes =>
      if VALIDATE_XML && !wellFormed bytes then .error "Invalid XML file"
      else .ok bytes

/-! ## Change detector (`check_for_updates`, `calculate_file_hash`) -/

/-- `calculate_file_hash`: MD5 over the file's bytes (`md5` is the hash
function, injectivity not assumed); when the file cannot be read the
exception is swallowed and the empty string returned. -/
def calculate_file_hash (md5 : FileData → String) (contents : Option FileData) :
    String :=
  match contents with
  | some bytes => md5 bytes
  | none => ""

/-- Python `current_hash != metadata.get('file_hash')`: comparison of a
string against a possibly-`None` stored value (`str != None` is true). -/
def pyNeOpt (s : String) : Option String → Bool
  | none => true
  | some h => s != h

/-- `ECFRScraper.check_for_updates`: `true` with no prior Ingestion
Record; otherwise a forced re-download (`force_download=True`), then the
fresh file's hash is compared with the stored one.  `readBack` models
re-reading the downloaded file from disk for hashing (`none` =
unreadable).  Any exception along the way yields `true` ("assume updated
on error"); the source's `if not xml_file: return False` branch is dead
because `download_title_xml` never returns `None`. -/
def check_for_updates (md : Option MetaRow) (fileExists : Bool) (cached : FileData)
    (fetch : Except String FileData) (wellFormed : FileData → Bool)
    (readBack : FileData → Option FileData) (md5 : FileData → String) : Bool :=
  match md with
  | none => true
  | some m =>
    match download_title_xml true fileExists cached fetch wellFormed with
    | .error _ => true
    | .ok bytes => pyNeOpt (calculate_file_hash md5 (readBack bytes)) m.file_hash

/-! ## Orchestrator (`ECFRScraper.scrape_all_titles`) -/

/-- `titles_to_process = title_numbers or CFR_TITLES` (an empty list is
falsy). -/
def titlesToProcess : Option (List Int) → List Int
  | none => CFR_TITLES
  | some l => if l.isEmpty then CFR_TITLES else l

/-- One loop iteration's recorded outcome for a unit: a download that
raises or returns `None` records 0; a parse that raises records 0;
otherwise the parsed record count. -/
def title_outcome (download : Int → Except String (Option FileData))
    (parse : FileData → Except String Nat) (t : Int) : Nat :=
  match download t with
  | .error _ => 0
  | .ok none => 0
  | .ok (some f) =>
    match parse f with
    | .error _ => 0
    | .ok n => n

/-- The `results` dict: assignment overwrites an existing key in place,
otherwise appends. -/
def dictInsert (l : List (Int × Nat)) (k : Int) (v : Nat) : List (Int × Nat) :=
  if l.any (fun p => p.1 == k) then
    l.map (fun p => if p.1 == k then (k, v) else p)
  else l ++ [(k, v)]

def dictGet (l : List (Int × Nat)) (k : Int) : Option Nat :=
  (l.find? (fun p => p.1 == k)).map (·.2)

def scrape_go (download : Int → Except String (Option FileData))
    (parse : FileData → Except String Nat) :
    List Int → List (Int × Nat) → List (Int × Nat)
  | [], res => res
  | t :: rest, res =>
    scrape_go download parse rest (dictInsert res t (title_outcome download parse t))

/-- `ECFRScraper.scrape_all_titles`: every requested unit is processed in
turn and its outcome recorded; a unit's failure is caught inside the
loop, recorded as 0, and the loop continues. -/
def scrape_all_titles (tns : Option (List Int))
    (download : Int → Except String (Option FileData))
    (parse : FileData → Except String Nat) : List (Int × Nat) :=
  scrape_go download parse (titlesToProcess tns) []

/-! ## Whitespace normal form of cleaned text

`singleSpaced` is the observable shape the spec ascribes to cleaned
text: no two adjacent whitespace characters, every whitespace character
is a plain space, and no leading or trailing whitespace. -/

/-- Two adjacent Python-whitespace characters occur somewhere. -/
def hasRun : List Char → Bool
  | c₁ :: c₂ :: cs => (isSpacePy c₁ && isSpacePy c₂) || hasRun (c₂ :: cs)
  | _ => false

/-- Every whitespace character is a plain `' '`. -/
def spacesNormed (l : List Char) : Bool := l.all (fun c => !isSpacePy c || c == ' ')

/-- Neither end is whitespace. -/
def noEdgeSpace (l : List Char) : Bool :=
  (match l.head? with | some c => !isSpacePy c | none => true) &&
  (match l.getLast? with | some c => !isSpacePy c | none => true)

def singleSpaced (l : List Char) : Bool :=
  !hasRun l && spacesNormed l && noEdgeSpace l

theorem hasRun_cons (a : Char) (l : List Char) :
    hasRun (a :: l) =
      ((match l.head? with | some b => isSpacePy a && isSpacePy b | none => false) ||
        hasRun l) := by
  cases l with
  | nil => simp [hasRun]
  | cons b bs => simp [hasRun]

theorem collapseWs_head (c : Char) (cs : List Char) :
    (collapseWs (c :: cs)).head? = some (if isSpacePy c then ' ' else c) := by
  induction cs generalizing c with
  | nil =>
    cases h : isSpacePy c <;> simp [collapseWs, h]
  | cons d ds ih =>
    by_cases h : (isSpacePy c && isSpacePy d) = true
    · obtain ⟨hc, hd⟩ := Bool.and_eq_true_iff.mp h
      have hstep : collapseWs (c :: d :: ds) = collapseWs (d :: ds) := by
        simp [collapseWs, h]
      rw [hstep, ih d]
      simp [hc, hd]
    · simp [collapseWs, h]

theorem collapseWs_noRun (l : List Char) : hasRun (collapseWs l) = false := by
  induction l with
  | nil => rfl
  | cons c cs ih =>
    cases cs with
    | nil =>
      cases h : isSpacePy c <;> simp [collapseWs, h, hasRun]
    | cons d ds =>
      have ih' : hasRun (collapseWs (d :: ds)) = false := ih
      by_cases h : (isSpacePy c && isSpacePy d) = true
      · have hstep : collapseWs (c :: d :: ds) = collapseWs (d :: ds) := by
          simp [collapseWs, h]
        rw [hstep]; exact ih'
      · have hstep : collapseWs (c :: d :: ds) =
            (if isSpacePy c then ' ' else c) :: collapseWs (d :: ds) := by
          simp [collapseWs, h]
        rw [hstep, hasRun_cons, collapseWs_head, ih']
        have hpair : (isSpacePy (if isSpacePy c then ' ' else c) &&
            isSpacePy (if isSpacePy d then ' ' else d)) = false := by
          cases hc : isSpacePy c <;> cases hd : isSpacePy d
          · simp [hc, hd]
          · simp [hc]
          · simp [hd]
          · rw [hc, hd] at h; exact absurd rfl h
        simp [hpair]

theorem normChar_space_ok (c : Char) :
    (!isSpacePy (if isSpacePy c then ' ' else c) ||
      ((if isSpacePy c then ' ' else c) == ' ')) = true := by
  cases h : isSpacePy c
  · simp [h]
  · simp

theorem collapseWs_normed (l : List Char) : spacesNormed (collapseWs l) = true := by
  induction l with
  | nil => rfl
  | cons c cs ih =>
    cases cs with
    | nil =>
      cases h : isSpacePy c
      · have hstep : collapseWs [c] = [c] := by simp [collapseWs, h]
        rw [hstep]
        show ((!isSpacePy c || c == ' ') && true) = true
        simp [h]
      · have hstep : collapseWs [c] = [' '] := by simp [collapseWs, h]
        rw [hstep]; decide
    | cons d ds =>
      by_cases h : (isSpacePy c && isSpacePy d) = true
      · have hstep : collapseWs (c :: d :: ds) = collapseWs (d :: ds) := by
          simp [collapseWs, h]
        rw [hstep]; exact ih
      · have hstep : collapseWs (c :: d :: ds) =
            (if isSpacePy c then ' ' else c) :: collapseWs (d :: ds) := by
          simp [collapseWs, h]
        rw [hstep]
        show ((!isSpacePy (if isSpacePy c then ' ' else c) ||
          ((if isSpacePy c then ' ' else c) == ' ')) &&
            spacesNormed (collapseWs (d :: ds))) = true
        rw [normChar_space_ok, ih]; rfl

theorem hasRun_tail {a : Char} {l : List Char} (h : hasRun (a :: l) = false) :
    hasRun l = false := by
  rw [hasRun_cons] at h
  exact (Bool.or_eq_false_iff.mp h).2

theorem hasRun_drop {l : List Char} (n : Nat) (h : hasRun l = false) :
    hasRun (List.drop n l) = false := by
  induction n generalizing l with
  | zero => simpa using h
  | succ m ih =>
    cases l with
    | nil => simp [hasRun]
    | cons c cs => simpa using ih (hasRun_tail h)

theorem replaceGo_cons_head (pat : List Char) (r c : Char) (cs : List Char)
    (fuel : Nat) :
    (replaceGo pat [r] fuel (c :: cs)).head? = some r ∨
      (replaceGo pat [r] fuel (c :: cs)).head? = some c := by
  cases fuel with
  | zero => right; rfl
  | succ f =>
    rw [replaceGo]
    split
    · left; rfl
    · right; rfl

theorem mem_drop_of_mem {x : Char} {l : List Char} (n : Nat)
    (h : x ∈ List.drop n l) : x ∈ l :=
  List.mem_of_mem_drop h

theorem replaceGo_mem {x : Char} (pat : List Char) (r : Char) :
    ∀ (fuel : Nat) (l : List Char), x ∈ replaceGo pat [r] fuel l → x = r ∨ x ∈ l := by
  intro fuel
  induction fuel with
  | zero => intro l h; right; exact h
  | succ f ih =>
    intro l
    cases l with
    | nil => intro h; cases h
    | cons c cs =>
      rw [replaceGo]
      split
      · intro h
        rcases List.mem_append.mp h with h₁ | h₂
        · left; simpa using h₁
        · rcases ih _ h₂ with h₃ | h₄
          · left; exact h₃
          · right; exact mem_drop_of_mem _ h₄
      · intro h
        rcases List.mem_cons.mp h with h₁ | h₂
        · right; simp [h₁]
        · rcases ih _ h₂ with h₃ | h₄
          · left; exact h₃
          · right; exact List.mem_cons_of_mem _ h₄

theorem replaceL_mem {x : Char} (pat : List Char) (r : Char) (l : List Char)
    (h : x ∈ replaceL pat [r] l) : x = r ∨ x ∈ l :=
  replaceGo_mem pat r l.length l h

theorem replaceGo_noRun (pat : List Char) (r : Char) (hr : isSpacePy r = false) :
    ∀ (fuel : Nat) (l : List Char),
      hasRun l = false → hasRun (replaceGo pat [r] fuel l) = false := by
  intro fuel
  induction fuel with
  | zero => intro l h; exact h
  | succ f ih =>
    intro l
    cases l with
    | nil => intro _; rfl
    | cons c cs =>
      intro h
      rw [replaceGo]
      split
      · have hrec := ih _ (hasRun_drop pat.length h)
        rw [List.singleton_append, hasRun_cons, hrec]
        cases hh : (replaceGo pat [r] f (List.drop pat.length (c :: cs))).head? with
        | none => simp
        | some b => simp [hr]
      · have hrec := ih _ (hasRun_tail h)
        rw [hasRun_cons, hrec]
        cases cs with
        | nil =>
          have hnil : replaceGo pat [r] f [] = [] := by cases f <;> rfl
          rw [hnil]
          rfl
        | cons d ds =>
          rcases replaceGo_cons_head pat r d ds f with hh | hh
          · rw [hh]
            simp [hr]
          · rw [hh]
            rw [hasRun_cons] at h
            have := (Bool.or_eq_false_iff.mp h).1
            simp at this ⊢
            intro hc
            simpa [hc] using this

theorem replaceL_noRun (pat : List Char) (r : Char) (hr : isSpacePy r = false)
    (l : List Char) (h : hasRun l = false) : hasRun (replaceL pat [r] l) = false :=
  replaceGo_noRun pat r hr l.length l h

theorem spacesNormed_mem {l : List Char} (h : spacesNormed l = true) {x : Char}
    (hx : x ∈ l) : (!isSpacePy x || x == ' ') = true := by
  rw [spacesNormed, List.all_eq_true] at h
  exact h x hx

theorem spacesNormed_of_mem {l : List Char}
    (h : ∀ x ∈ l, (!isSpacePy x || x == ' ') = true) : spacesNormed l = true := by
  rw [spacesNormed, List.all_eq_true]
  exact h

theorem replaceL_normed (pat : List Char) (r : Char)
    (hr : (!isSpacePy r || r == ' ') = true) (l : List Char)
    (h : spacesNormed l = true) : spacesNormed (replaceL pat [r] l) = true := by
  apply spacesNormed_of_mem
  intro x hx
  rcases replaceL_mem pat r l hx with h₁ | h₂
  · rw [h₁]; exact hr
  · exact spacesNormed_mem h h₂

theorem replaceEnts_noRun {l : List Char} (h : hasRun l = false) :
    hasRun (replaceEnts l) = false := by
  unfold replaceEnts
  apply replaceL_noRun _ _ (by decide)
  apply replaceL_noRun _ _ (by decide)
  apply replaceL_noRun _ _ (by decide)
  apply replaceL_noRun _ _ (by decide)
  exact replaceL_noRun _ _ (by decide) _ h

theorem replaceEnts_normed {l : List Char} (h : spacesNormed l = true) :
    spacesNormed (replaceEnts l) = true := by
  unfold replaceEnts
  apply replaceL_normed _ _ (by decide)
  apply replaceL_normed _ _ (by decide)
  apply replaceL_normed _ _ (by decide)
  apply replaceL_normed _ _ (by decide)
  exact replaceL_normed _ _ (by decide) _ h

theorem mem_dropWhile_sub {p : Char → Bool} {x : Char} :
    ∀ {l : List Char}, x ∈ l.dropWhile p → x ∈ l := by
  intro l
  induction l with
  | nil => intro h; cases h
  | cons c cs ih =>
    rw [List.dropWhile_cons]
    split
    · intro h; exact List.mem_cons_of_mem _ (ih h)
    · intro h; exact h

theorem hasRun_dropWhile (p : Char → Bool) {l : List Char}
    (h : hasRun l = false) : hasRun (l.dropWhile p) = false := by
  induction l with
  | nil => simpa using h
  | cons c cs ih =>
    by_cases hc : p c = true
    · rw [List.dropWhile_cons, if_pos hc]
      exact ih (hasRun_tail h)
    · rw [List.dropWhile_cons, if_neg hc]
      exact h

theorem head?_dropEndWhile (p : Char → Bool) (l : List Char) :
    (dropEndWhile p l).head? = none ∨ (dropEndWhile p l).head? = l.head? := by
  cases l with
  | nil => left; rfl
  | cons c cs =>
    rw [dropEndWhile]
    split
    · left; rfl
    · right; rfl

theorem hasRun_dropEndWhile (p : Char → Bool) {l : List Char}
    (h : hasRun l = false) : hasRun (dropEndWhile p l) = false := by
  induction l with
  | nil => simpa using h
  | cons c cs ih =>
    rw [dropEndWhile]
    split
    · rfl
    · rw [hasRun_cons, ih (hasRun_tail h)]
      rcases head?_dropEndWhile p cs with hh | hh
      · rw [hh]; simp
      · rw [hh]
        cases cs with
        | nil => simp
        | cons d ds =>
          rw [hasRun_cons] at h
          have := (Bool.or_eq_false_iff.mp h).1
          simpa using this

theorem mem_dropEndWhile {p : Char → Bool} {x : Char} :
    ∀ {l : List Char}, x ∈ dropEndWhile p l → x ∈ l := by
  intro l
  induction l with
  | nil => intro h; cases h
  | cons c cs ih =>
    rw [dropEndWhile]
    split
    · intro h; cases h
    · intro h
      rcases List.mem_cons.mp h with h₁ | h₂
      · simp [h₁]
      · exact List.mem_cons_of_mem _ (ih h₂)

theorem head?_dropWhile_not (p : Char → Bool) :
    ∀ l : List Char, ∀ c, (l.dropWhile p).head? = some c → p c = false := by
  intro l
  induction l with
  | nil => intro c h; cases h
  | cons a as ih =>
    intro c h
    by_cases ha : p a = true
    · rw [List.dropWhile_cons, if_pos ha] at h
      exact ih c h
    · rw [List.dropWhile_cons, if_neg ha] at h
      cases h
      exact Bool.eq_false_iff.mpr ha

theorem getLast?_dropEndWhile (p : Char → Bool) :
    ∀ l : List Char, ∀ c, (dropEndWhile p l).getLast? = some c → p c = false := by
  intro l
  induction l with
  | nil => intro c h; cases h
  | cons a as ih =>
    intro c h
    rw [dropEndWhile] at h
    split at h
    · cases h
    · rename_i hcond
      cases hr : dropEndWhile p as with
      | nil =>
        rw [hr] at h hcond
        have hpa : p a = false := by
          by_cases hp : p a = true
          · exact absurd (by rw [hp]; rfl) hcond
          · exact Bool.eq_false_iff.mpr hp
        have hac : a = c := by
          rw [List.getLast?_singleton] at h
          exact Option.some.inj h
        rw [← hac]
        exact hpa
      | cons d ds =>
        rw [hr] at h
        rw [List.getLast?_cons_cons] at h
        rw [← hr] at h
        exact ih c h

/-- Cleaned text is in whitespace normal form: runs collapsed to single
plain spaces and no whitespace at either end. -/
theorem singleSpaced_cleanTextL (l : List Char) :
    singleSpaced (cleanTextL l) = true := by
  rw [cleanTextL]
  split
  · rfl
  · set B := replaceEnts (collapseWs l) with hB
    have hnoRun : hasRun B = false :=
      replaceEnts_noRun (collapseWs_noRun l)
    have hnormed : spacesNormed B = true :=
      replaceEnts_normed (collapseWs_normed l)
    rw [stripL]
    set C := B.dropWhile isSpacePy with hC
    have hnoRun₂ : hasRun (dropEndWhile isSpacePy C) = false :=
      hasRun_dropEndWhile _ (hasRun_dropWhile _ hnoRun)
    have hnormed₂ : spacesNormed (dropEndWhile isSpacePy C) = true := by
      apply spacesNormed_of_mem
      intro x hx
      have hx₁ : x ∈ C := mem_dropEndWhile hx
      rw [hC] at hx₁
      exact spacesNormed_mem hnormed (mem_dropWhile_sub hx₁)
    have hhead : (match (dropEndWhile isSpacePy C).head? with
        | some c => !isSpacePy c | none => true) = true := by
      rcases head?_dropEndWhile isSpacePy C with hh | hh
      · rw [hh]
      · rw [hh]
        cases hc : C.head? with
        | none => rfl
        | some c =>
          have := head?_dropWhile_not isSpacePy B c (by rw [← hC] at *; exact hc)
          simp [this]
    have hlast : (match (dropEndWhile isSpacePy C).getLast? with
        | some c => !isSpacePy c | none => true) = true := by
      cases hg : (dropEndWhile isSpacePy C).getLast? with
      | none => rfl
      | some c =>
        have := getLast?_dropEndWhile isSpacePy C c hg
        simp [this]
    rw [singleSpaced, noEdgeSpace, hnoRun₂, hnormed₂, hhead, hlast]
    rfl

/-! ## Supporting lemmas for the claim theorems -/

theorem find_meta_replaced (l : List MetaRow) (n : Int) (a : MetaRow)
    (ha : (a.title_number == n) = true) :
    (l.filter (fun r => !(r.title_number == n)) ++ [a]).find?
      (fun r => r.title_number == n) = some a := by
  induction l with
  | nil => simp [List.find?, ha]
  | cons c cs ih =>
    by_cases hc : (c.title_number == n) = true
    · rw [List.filter_cons, hc]
      simpa using ih
    · have hc' : (c.title_number == n) = false := Bool.eq_false_iff.mpr hc
      rw [List.filter_cons, hc']
      simp only [Bool.not_false, if_pos]
      rw [List.cons_append, List.find?_cons, hc']
      exact ih


end ECFR

namespace ECFR

/-- C1: during one unit's parse, persistence runs as a single transaction
committed only after the whole document is processed.  A parse failure
before the commit leaves the committed store — and with it every other
unit's already-committed ingestion state — untouched, and that unit's
Ingestion Record is set to `failed` status carrying the error detail
before the terminal error is returned to the caller; a successful parse
commits exactly at the end, making the committed and working states
coincide. -/
theorem parse_title_xml_transaction :
    (∀ (e : String) (n : Int) (now fs : Nat) (fh : String) (c : Conn),
      (parse_title_xml (.error e) n now fs fh c).1 =
          .error ("XML parsing failed: " ++ e) ∧
      ((parse_title_xml (.error e) n now fs fh c).2).committed = c.committed ∧
      get_scraping_metadata ((parse_title_xml (.error e) n now fs fh c).2).current n =
        some ⟨n, now, none, none, "failed", some e, 0⟩) ∧
    (∀ (root : Elem) (n : Int) (now fs : Nat) (fh : String) (c : Conn),
      ((parse_title_xml (.ok root) n now fs fh c).2).committed =
          ((parse_title_xml (.ok root) n now fs fh c).2).current ∧
      (parse_title_xml (.ok root) n now fs fh c).1 =
          .ok (parse_title_core root n now (update_scraping_metadata c.current now n
            "in_progress" (some fs) (some fh) none 0)).1) := by
  constructor
  · intro e n now fs fh c
    refine ⟨rfl, rfl, ?_⟩
    show ((update_scraping_metadata (update_scraping_metadata c.current now n
        "in_progress" (some fs) (some fh) none 0) now n "failed" none none
          (some e) 0).metadata).find? (fun r => r.title_number == n) = _
    exact find_meta_replaced _ n _ (by simp)
  · intro root n now fs fh c
    rcases he : parse_title_core root n now (update_scraping_metadata c.current now n
      "in_progress" (some fs) (some fh) none 0) with ⟨records, db₁⟩
    constructor
    · simp [parse_title_xml, he]
    · simp [parse_title_xml, he]

/-- C2: with every one of the `MAX_RETRIES` attempts failing on a
transport-level error, `_make_request` raises a terminal error after
exactly `MAX_RETRIES` attempts carrying the last underlying error; with
the first success at attempt `k`, that response is returned after `k + 1`
attempts and no further attempt is made. -/
theorem make_request_retry_bound :
    (∀ (attempts : Nat → AttemptOutcome) (exc : Nat → String),
      (∀ i, i < MAX_RETRIES → attempts i = .failure (exc i)) →
      make_request attempts = (.error (some (exc (MAX_RETRIES - 1))), MAX_RETRIES)) ∧
    (∀ (attempts : Nat → AttemptOutcome) (k resp : Nat),
      k < MAX_RETRIES →
      (∀ i, i < k → ∃ e, attempts i = .failure e) →
      attempts k = .success resp →
      make_request attempts = (.ok resp, k + 1)) := by
  have go_succ : ∀ (attempts : Nat → AttemptOutcome) (r i made : Nat)
      (last : Option String) (resp : Nat), attempts i = .success resp →
      make_request_go attempts (r + 1) i last made = (.ok resp, made + 1) := by
    intro attempts r i made last resp h
    show (match attempts i with
      | .success resp => ((.ok resp : Except (Option String) Nat), made + 1)
      | .failure e => make_request_go attempts r (i + 1) (some e) (made + 1)) = _
    rw [h]
  have go_fail : ∀ (attempts : Nat → AttemptOutcome) (r i made : Nat)
      (last : Option String) (e : String), attempts i = .failure e →
      make_request_go attempts (r + 1) i last made =
        make_request_go attempts r (i + 1) (some e) (made + 1) := by
    intro attempts r i made last e h
    show (match attempts i with
      | .success resp => ((.ok resp : Except (Option String) Nat), made + 1)
      | .failure e => make_request_go attempts r (i + 1) (some e) (made + 1)) = _
    rw [h]
  constructor
  · intro attempts exc h
    have h0 := h 0 (by norm_num [MAX_RETRIES])
    have h1 := h 1 (by norm_num [MAX_RETRIES])
    have h2 := h 2 (by norm_num [MAX_RETRIES])
    show make_request_go attempts (2 + 1) 0 none 0 = _
    rw [go_fail _ _ _ _ _ _ h0]
    rw [show (2 : Nat) = 1 + 1 from rfl, go_fail _ _ _ _ _ _ h1]
    rw [show (1 : Nat) = 0 + 1 from rfl, go_fail _ _ _ _ _ _ h2]
    rfl
  · intro attempts k resp hk hfail hsucc
    have hk3 : k < 3 := hk
    interval_cases k
    · show make_request_go attempts (2 + 1) 0 none 0 = _
      rw [go_succ _ _ _ _ _ _ hsucc]
    · obtain ⟨e0, h0⟩ := hfail 0 (by norm_num)
      show make_request_go attempts (2 + 1) 0 none 0 = _
      rw [go_fail _ _ _ _ _ _ h0]
      rw [show (2 : Nat) = 1 + 1 from rfl, go_succ _ _ _ _ _ _ hsucc]
    · obtain ⟨e0, h0⟩ := hfail 0 (by norm_num)
      obtain ⟨e1, h1⟩ := hfail 1 (by norm_num)
      show make_request_go attempts (2 + 1) 0 none 0 = _
      rw [go_fail _ _ _ _ _ _ h0]
      rw [show (2 : Nat) = 1 + 1 from rfl, go_fail _ _ _ _ _ _ h1]
      rw [show (1 : Nat) = 0 + 1 from rfl, go_succ _ _ _ _ _ _ hsucc]

theorem make_request_retry_bound_witness :
    make_request (fun _ => .failure "connection refused") =
        (.error (some "connection refused"), 3) ∧
    make_request (fun i => if i = 1 then .success 7 else .failure "timeout") =
        (.ok 7, 2) := by
  constructor
  · exact make_request_retry_bound.1 (fun _ => .failure "connection refused")
      (fun _ => "connection refused") (fun _ _ => rfl)
  · exact make_request_retry_bound.2
      (fun i => if i = 1 then .success 7 else .failure "timeout") 1 7
      (by norm_num [MAX_RETRIES])
      (fun i hi => ⟨"timeout", by interval_cases i; rfl⟩) rfl

/-- C3: `check_for_updates` returns `true` when no prior Ingestion Record
exists; otherwise it re-downloads with `force_download=True` (so the
cached file and its existence are irrelevant to the outcome) and returns
`true` exactly when the fresh bytes' fingerprint differs from the stored
one, `false` on an exact match. -/
theorem check_for_updates_spec :
    (∀ (fe : Bool) (cached : FileData) (fetch : Except String FileData)
       (wf : FileData → Bool) (rb : FileData → Option FileData)
       (md5 : FileData → String),
      check_for_updates none fe cached fetch wf rb md5 = true) ∧
    (∀ (n : Int) (ls : Nat) (fs : Option Nat) (st : String) (em : Option String)
       (rp : Nat) (stored : String) (fe : Bool) (cached bytes : FileData)
       (wf : FileData → Bool) (md5 : FileData → String),
      wf bytes = true →
      check_for_updates (some ⟨n, ls, fs, some stored, st, em, rp⟩) fe cached
          (.ok bytes) wf some md5 = (md5 bytes != stored)) := by
  constructor
  · intro fe cached fetch wf rb md5
    rfl
  · intro n ls fs st em rp stored fe cached bytes wf md5 hwf
    simp [check_for_updates, download_title_xml, VALIDATE_XML, SKIP_EXISTING, hwf,
      calculate_file_hash, pyNeOpt]

theorem check_for_updates_spec_witness :
    check_for_updates (some ⟨1, 0, none, some "abc", "completed", none, 0⟩) true
        [0] (.ok [1, 2]) (fun _ => true) some (fun _ => "dfn") = true := by
  have h := check_for_updates_spec.2 1 0 none "completed" none 0 "abc" true [0]
    [1, 2] (fun _ => true) (fun _ => "dfn") rfl
  rw [h]
  decide

/-- C9: `get_or_create_part` looks up by `(chapter_id, part_number)`
only; whenever a matching row exists, the store is returned unchanged
(no field written) and the returned identity is the same regardless of
the subchapter, name, authority or source arguments supplied. -/
theorem get_or_create_part_frame :
    ∀ (db : DB) (cid pn : Nat) (r : PartRow) (scid scid' : Option Nat)
      (name name' : String) (auth auth' src src' : Option String),
      db.parts.find? (fun q => q.chapter_id == cid && q.part_number == pn) = some r →
      get_or_create_part db cid scid pn name auth src = (r.id, db) ∧
      get_or_create_part db cid scid' pn name' auth' src' = (r.id, db) := by
  intro db cid pn r scid scid' name name' auth auth' src src' h
  constructor <;> simp [get_or_create_part, h]

theorem get_or_create_part_frame_witness :
    get_or_create_part ⟨[], [], [], [⟨4, 2, some 9, 30, "PART 30", none, none⟩], [], []⟩
        2 none 30 "other name" (some "auth") none =
      (4, ⟨[], [], [], [⟨4, 2, some 9, 30, "PART 30", none, none⟩], [], []⟩) :=
  (get_or_create_part_frame ⟨[], [], [], [⟨4, 2, some 9, 30, "PART 30", none, none⟩], [], []⟩
    2 30 ⟨4, 2, some 9, 30, "PART 30", none, none⟩ (some 9) none "x" "other name"
    none (some "auth") none none (by decide)).2

/-- C10: `calculate_file_hash` swallows a read failure and returns the
empty string; consequently fingerprinting an unreadable downloaded
document inside `check_for_updates` compares the empty fingerprint
against the stored one instead of surfacing an error. -/
theorem calculate_file_hash_unreadable :
    (∀ md5 : FileData → String, calculate_file_hash md5 none = "") ∧
    (∀ (n : Int) (ls : Nat) (fs : Option Nat) (st : String) (em : Option String)
       (rp : Nat) (stored : String) (fe : Bool) (cached bytes : FileData)
       (wf : FileData → Bool) (md5 : FileData → String),
      wf bytes = true →
      check_for_updates (some ⟨n, ls, fs, some stored, st, em, rp⟩) fe cached
          (.ok bytes) wf (fun _ => none) md5 = ("" != stored)) := by
  constructor
  · intro md5; rfl
  · intro n ls fs st em rp stored fe cached bytes wf md5 hwf
    simp [check_for_updates, download_title_xml, VALIDATE_XML, SKIP_EXISTING, hwf,
      calculate_file_hash, pyNeOpt]

theorem calculate_file_hash_unreadable_witness :
    check_for_updates (some ⟨1, 0, none, some "abc", "completed", none, 0⟩) false
        [0] (.ok [1, 2]) (fun _ => true) (fun _ => none) (fun _ => "dfn") = true := by
  have h := calculate_file_hash_unreadable.2 1 0 none "completed" none 0 "abc" false
    [0] [1, 2] (fun _ => true) (fun _ => "dfn") rfl
  rw [h]
  decide

/-- C5: inserting two sections with the same number under the same part
(into a store with no prior row for that pair) leaves exactly one stored
row for the pair, and that row's heading, content, authority, source and
external node identifier are those supplied by the second insert. -/
theorem insert_section_collapses :
    ∀ (db : DB) (pid : Nat) (num h₁ c₁ h₂ c₂ : String)
      (a₁ s₁ nd₁ a₂ s₂ nd₂ : Option String),
      db.sections.find? (fun r => r.part_id == pid && r.section_number == num) = none →
      (((insert_section (insert_section db pid num h₁ c₁ a₁ s₁ nd₁).2
          pid num h₂ c₂ a₂ s₂ nd₂).2).sections.filter
            (fun r => r.part_id == pid && r.section_number == num)) =
        [⟨db.sections.length + 1, pid, num, h₂, c₂, a₂, s₂, nd₂⟩] := by
  intro db pid num h₁ c₁ h₂ c₂ a₁ s₁ nd₁ a₂ s₂ nd₂ hnone
  set new₁ : SectionRow := ⟨db.sections.length + 1, pid, num, h₁, c₁, a₁, s₁, nd₁⟩
    with hn₁
  set new₂ : SectionRow := ⟨db.sections.length + 1, pid, num, h₂, c₂, a₂, s₂, nd₂⟩
    with hn₂
  set upd : SectionRow → SectionRow := fun s =>
    if s.id == db.sections.length + 1 then
      { s with section_heading := h₂, section_content := c₂,
               authority_citation := a₂, source_citation := s₂,
               xml_node_id := nd₂ }
    else s with hupd
  have hstep₁ : (insert_section db pid num h₁ c₁ a₁ s₁ nd₁).2 =
      { db with sections := db.sections ++ [new₁] } := by
    simp [insert_section, hnone]
  rw [hstep₁]
  have hfind : (List.find? (fun r : SectionRow =>
      r.part_id == pid && r.section_number == num) (db.sections ++ [new₁])) =
      some new₁ := by
    rw [List.find?_append, hnone]
    simp [List.find?, hn₁]
  have hstep₂ : (insert_section { db with sections := db.sections ++ [new₁] }
      pid num h₂ c₂ a₂ s₂ nd₂).2 =
      { db with sections := (db.sections ++ [new₁]).map upd } := by
    simp only [insert_section]
    rw [hfind]
  rw [hstep₂]
  show ((db.sections ++ [new₁]).map upd).filter
      (fun r => r.part_id == pid && r.section_number == num) = [new₂]
  rw [List.map_append, List.filter_append]
  have hold : ((db.sections.map upd).filter
      (fun r => r.part_id == pid && r.section_number == num)) = [] := by
    rw [List.filter_eq_nil_iff]
    intro x hx
    obtain ⟨s, hs, hsx⟩ := List.mem_map.mp hx
    have hkey : ¬ ((s.part_id == pid && s.section_number == num) = true) :=
      List.find?_eq_none.mp hnone s hs
    have hkeep : x.part_id = s.part_id ∧ x.section_number = s.section_number := by
      rw [hupd] at hsx
      by_cases hid : (s.id == db.sections.length + 1) = true <;>
        simp only [hid, if_true, if_false, Bool.false_eq_true] at hsx <;>
          rw [← hsx] <;> exact ⟨rfl, rfl⟩
    intro hcontra
    apply hkey
    rw [← hkeep.1, ← hkeep.2]
    exact hcontra
  rw [hold]
  have hmap : [new₁].map upd = [new₂] := by
    simp [hupd, hn₁, hn₂]
  rw [hmap]
  simp [List.filter, hn₂]

theorem insert_section_collapses_witness :
    (((insert_section (insert_section emptyDB 1 "1.1" "old h" "old body"
        none none none).2 1 "1.1" "new h" "new body" (some "a") (some "s")
          (some "nd")).2).sections.filter
            (fun r => r.part_id == 1 && r.section_number == "1.1")) =
      [⟨1, 1, "1.1", "new h", "new body", some "a", some "s", some "nd"⟩] :=
  insert_section_collapses emptyDB 1 "1.1" "old h" "old body" "new h" "new body"
    none none none (some "a") (some "s") (some "nd") (by decide)

theorem dictGet_insert_self (l : List (Int × Nat)) (k : Int) (v : Nat) :
    dictGet (dictInsert l k v) k = some v := by
  rw [dictInsert]
  split
  · rename_i hany
    rw [dictGet]
    induction l with
    | nil => simp at hany
    | cons hd tl ih =>
      by_cases hk : (hd.1 == k) = true
      · simp only [List.map_cons, hk, if_true]
        rw [List.find?_cons]
        simp
      · have hk' : (hd.1 == k) = false := Bool.eq_false_iff.mpr hk
        simp only [List.map_cons, hk', Bool.false_eq_true, if_false]
        rw [List.find?_cons, hk']
        apply ih
        simp only [List.any_cons, hk', Bool.false_or] at hany
        exact hany
  · rename_i hany
    have hnone : l.find? (fun p => p.1 == k) = none := by
      rw [List.find?_eq_none]
      intro x hx hpx
      exact hany (List.any_eq_true.mpr ⟨x, hx, hpx⟩)
    rw [dictGet, List.find?_append, hnone]
    simp [List.find?]

theorem find_map_assign_ne (l : List (Int × Nat)) (k k' : Int) (v : Nat)
    (hne : k' ≠ k) :
    List.find? (fun p => p.1 == k) (l.map (fun p => if p.1 == k' then (k', v) else p)) =
      List.find? (fun p => p.1 == k) l := by
  induction l with
  | nil => rfl
  | cons hd tl ih =>
    rw [List.map_cons]
    cases hk : (hd.1 == k') with
    | true =>
      have h1 : hd.1 = k' := by simpa using hk
      have hhd : (hd.1 == k) = false := by simp [h1, hne]
      have hkv : (((k', v) : Int × Nat).1 == k) = false := by simp [hne]
      rw [List.find?_cons, List.find?_cons]
      simp only [hk, if_true, hhd, hkv, ih]
    | false =>
      rw [List.find?_cons, List.find?_cons]
      simp only [hk, Bool.false_eq_true, if_false]
      cases hhd : (hd.1 == k) with
      | true => rfl
      | false => simpa [hhd] using ih

theorem dictGet_insert_other (l : List (Int × Nat)) (k k' : Int) (v : Nat)
    (hne : k' ≠ k) : dictGet (dictInsert l k' v) k = dictGet l k := by
  have hfalse : (((k', v) : Int × Nat).1 == k) = false := by
    simp [hne]
  rw [dictInsert]
  split
  · rw [dictGet, dictGet, find_map_assign_ne l k k' v hne]
  · rw [dictGet, dictGet, List.find?_append]
    cases hl : l.find? (fun p => p.1 == k) with
    | some a => rfl
    | none =>
      rw [List.find?_cons]
      simp [hfalse]

theorem scrape_go_covers (download : Int → Except String (Option FileData))
    (parse : FileData → Except String Nat) (t : Int) :
    ∀ (l : List Int) (res : List (Int × Nat)),
      (t ∈ l ∨ dictGet res t = some (title_outcome download parse t)) →
      dictGet (scrape_go download parse l res) t =
        some (title_outcome download parse t) := by
  intro l
  induction l with
  | nil =>
    intro res h
    rcases h with h | h
    · cases h
    · exact h
  | cons a rest ih =>
    intro res h
    rw [scrape_go]
    apply ih
    by_cases hat : a = t
    · right
      rw [hat]
      exact dictGet_insert_self res t (title_outcome download parse t)
    · rcases h with hmem | hres
      · rcases List.mem_cons.mp hmem with h₁ | h₂
        · exact absurd h₁.symm hat
        · left; exact h₂
      · right
        rw [dictGet_insert_other res t a _ hat]
        exact hres

/-- C8: the orchestrator records an outcome for every requested unit: a
unit whose download raises (or yields no file) or whose parse raises is
recorded with count 0, and processing continues, so the result mapping
has an entry for each requested unit regardless of failures. -/
theorem scrape_all_titles_covers :
    (∀ (download : Int → Except String (Option FileData))
       (parse : FileData → Except String Nat) (t : Int) (e : String),
      download t = .error e → title_outcome download parse t = 0) ∧
    (∀ (download : Int → Except String (Option FileData))
       (parse : FileData → Except String Nat) (t : Int) (f : FileData) (e : String),
      download t = .ok (some f) → parse f = .error e →
      title_outcome download parse t = 0) ∧
    (∀ (tns : Option (List Int)) (download : Int → Except String (Option FileData))
       (parse : FileData → Except String Nat) (t : Int),
      t ∈ titlesToProcess tns →
      dictGet (scrape_all_titles tns download parse) t =
        some (title_outcome download parse t)) := by
  refine ⟨?_, ?_, ?_⟩
  · intro download parse t e h
    simp [title_outcome, h]
  · intro download parse t f e h₁ h₂
    simp [title_outcome, h₁, h₂]
  · intro tns download parse t ht
    exact scrape_go_covers download parse t _ [] (Or.inl ht)

theorem scrape_all_titles_covers_witness :
    dictGet (scrape_all_titles (some [5, 6])
        (fun t => if t == 5 then .error "boom" else .ok (some [1]))
        (fun _ => .ok 42)) 5 = some 0 := by
  have h := scrape_all_titles_covers.2.2 (some [5, 6])
    (fun t => if t == 5 then .error "boom" else .ok (some [1]))
    (fun _ => .ok 42) 5 (by decide)
  rw [h]
  decide

/-- C6 counterexample: the flattened text of a section body paragraph
keeps interior whitespace runs and XML escapes: `_clean_text` is not
applied on the body path, only joining with single spaces and stripping
is.  The produced body text therefore differs from the
collapsed-and-decoded text the claim asserts. -/
theorem section_body_keeps_runs_and_escapes :
    extract_section_content (Elem.mk "DIV8" [] none
        [Elem.mk "P" [] (some "a  b &amp; c") [] none] none) = "a  b &amp; c" ∧
    cleanText "a  b &amp; c" = "a b & c" ∧
    ("a  b &amp; c" : String) ≠ "a b & c" := by
  refine ⟨by decide, by decide, by decide⟩

/-- C6 amended: authority/source citation text is flattened and cleaned —
whitespace runs collapse to single plain spaces, the result is trimmed
(`singleSpaced`), and the five XML escapes decode to their literal
characters; section body paragraphs are only flattened — fragments are
joined with single spaces and trimmed, while whitespace runs inside a
fragment are preserved and escapes are left encoded. -/
theorem flatten_clean_spec :
    (∀ (e : Elem) (t : String), extract_authority e = some t →
        singleSpaced t.data = true) ∧
    (∀ (e : Elem) (t : String), extract_source e = some t →
        singleSpaced t.data = true) ∧
    (extract_authority (Elem.mk "DIV5" [] none
        [Elem.mk "AUTH" [] (some "5 U.S.C.  301 &amp; 302,&lt;note&gt;") [] none]
        none) = some "5 U.S.C. 301 & 302,<note>") ∧
    (extract_section_content (Elem.mk "DIV8" [] none
        [Elem.mk "P" [] (some " x ") [] none,
         Elem.mk "P" [] (some "y&amp;z  w") [] none] none) = "x\n\ny&amp;z  w") := by
  refine ⟨?_, ?_, by decide, by decide⟩
  · intro e t h
    rw [extract_authority] at h
    cases hf : findFirstDesc (fun c => c.tag == "AUTH") e with
    | none => rw [hf] at h; cases h
    | some a =>
      rw [hf] at h
      have ht : t = cleanText (extractElementText a) := (Option.some.inj h).symm
      rw [ht]
      exact singleSpaced_cleanTextL _
  · intro e t h
    rw [extract_source] at h
    cases hf : findFirstDesc (fun c => c.tag == "SOURCE") e with
    | none => rw [hf] at h; cases h
    | some a =>
      rw [hf] at h
      have ht : t = cleanText (extractElementText a) := (Option.some.inj h).symm
      rw [ht]
      exact singleSpaced_cleanTextL _

theorem flatten_clean_spec_witness :
    singleSpaced ("5 U.S.C. 301 & 302,<note>" : String).data = true :=
  flatten_clean_spec.1 (Elem.mk "DIV5" [] none
    [Elem.mk "AUTH" [] (some "5 U.S.C.  301 &amp; 302,&lt;note&gt;") [] none] none)
    "5 U.S.C. 301 & 302,<note>" (by decide)

theorem dig_not_space {c : Char} (h : isDigitDot c = true) : isSpacePy c = false := by
  cases hs : isSpacePy c with
  | false => rfl
  | true =>
    exfalso
    simp only [isSpacePy, Bool.or_eq_true, decide_eq_true_eq] at hs
    rcases hs with ((((h₁ | h₁) | h₁) | h₁) | h₁) | h₁ <;> subst h₁ <;>
      exact absurd h (by decide)

theorem takeWhile_all_append (p : Char → Bool) (n : List Char) (x : Char)
    (r : List Char) (hall : ∀ c ∈ n, p c = true) (hx : p x = false) :
    (n ++ x :: r).takeWhile p = n := by
  induction n with
  | nil => simp [List.takeWhile_cons, hx]
  | cons m ms ih =>
    rw [List.cons_append, List.takeWhile_cons, hall m (List.mem_cons_self _ _)]
    rw [ih (fun c hc => hall c (List.mem_cons_of_mem _ hc))]
    rfl

theorem dropWhile_all_append (p : Char → Bool) (n : List Char) (x : Char)
    (r : List Char) (hall : ∀ c ∈ n, p c = true) :
    (n ++ x :: r).dropWhile p = (x :: r).dropWhile p := by
  induction n with
  | nil => rfl
  | cons m ms ih =>
    rw [List.cons_append, List.dropWhile_cons, hall m (List.mem_cons_self _ _)]
    rw [ih (fun c hc => hall c (List.mem_cons_of_mem _ hc))]
    rfl

theorem dropWhile_idem (p : Char → Bool) (l : List Char) :
    (l.dropWhile p).dropWhile p = l.dropWhile p := by
  induction l with
  | nil => rfl
  | cons c cs ih =>
    rw [List.dropWhile_cons]
    split
    · exact ih
    · rename_i hc
      rw [List.dropWhile_cons, if_neg hc]

theorem subSecGo_no_mark :
    ∀ (fuel : Nat) (l : List Char), (∀ c ∈ l, c ≠ '§') → subSecGo fuel l = l := by
  intro fuel
  induction fuel with
  | zero => intro l _; rfl
  | succ f ih =>
    intro l hl
    cases l with
    | nil => rfl
    | cons c cs =>
      have hc : c ≠ '§' := hl c (List.mem_cons_self _ _)
      have hmatch : matchSecRefAt (c :: cs) = none := by
        rw [matchSecRefAt, if_neg hc]
      rw [subSecGo, hmatch]
      rw [ih cs (fun d hd => hl d (List.mem_cons_of_mem _ hd))]

theorem matchSecRefAt_construct (m : Char) (ms rest : List Char)
    (hdig : ∀ c ∈ m :: ms, isDigitDot c = true) :
    matchSecRefAt ('§' :: ' ' :: ((m :: ms) ++ ' ' :: rest)) =
      some (rest.dropWhile isSpacePy) := by
  have hm : isSpacePy m = false := dig_not_space (hdig m (List.mem_cons_self _ _))
  have hd₁ : (' ' :: ((m :: ms) ++ ' ' :: rest)).dropWhile isSpacePy =
      (m :: ms) ++ ' ' :: rest := by
    rw [List.dropWhile_cons, if_pos (by decide), List.cons_append,
      List.dropWhile_cons, hm]
    rfl
  have htake : (((m :: ms) ++ ' ' :: rest).takeWhile isDigitDot) = m :: ms :=
    takeWhile_all_append _ _ _ _ hdig (by decide)
  have hdrop₂ : (((m :: ms) ++ ' ' :: rest).dropWhile isDigitDot) = ' ' :: rest :=
    by
      rw [dropWhile_all_append _ _ _ _ hdig, List.dropWhile_cons,
        if_neg (by decide)]
  rw [matchSecRefAt, if_pos rfl, hd₁]
  simp only [htake, hdrop₂, List.isEmpty_cons, Bool.false_eq_true, if_false,
    List.dropWhile_cons, if_pos (by decide : isSpacePy ' ' = true)]

/-- C7 counterexample: the heading regex `re.sub(r'§\s*[\d.]+\s*', '', …)`
removes every `§ <number>` occurrence, so an interior cross-reference is
deleted from the stored heading instead of being preserved. -/
theorem sectionHeading_interior_ref_removed :
    sectionHeadingOf (Elem.mk "DIV8" [("N", "1.1")] none
        [Elem.mk "HEAD" [] (some "§ 1.1 Cross-reference to § 2.3 applies.") [] none]
        none) = "Cross-reference to applies." ∧
    ("Cross-reference to applies." : String) ≠
      "Cross-reference to § 2.3 applies." := by
  refine ⟨by decide, by decide⟩

/-- C7 amended: the stored heading is the cleaned `HEAD` text with every
`§ <number>` occurrence (including trailing whitespace) removed and the
result trimmed.  In particular, when nothing after the leading
`"§ <number> "` prefix contains a section mark, the heading is exactly
the prefix-stripped remainder — but interior `§ <number>` references are
removed too, not preserved. -/
theorem sectionHeading_strips_all_refs :
    (∀ (n rest : List Char), n ≠ [] → (∀ c ∈ n, isDigitDot c = true) →
      (∀ c ∈ rest, c ≠ '§') →
      stripL (subSecRefs ('§' :: ' ' :: (n ++ ' ' :: rest))) = stripL rest) ∧
    (sectionHeadingOf (Elem.mk "DIV8" [] none
        [Elem.mk "HEAD" [] (some "§ 10.5 General provisions") [] none] none) =
      "General provisions") := by
  constructor
  · intro n rest hn hdig hmark
    obtain ⟨m, ms, rfl⟩ : ∃ m ms, n = m :: ms := by
      cases n with
      | nil => exact absurd rfl hn
      | cons m ms => exact ⟨m, ms, rfl⟩
    have hmatch := matchSecRefAt_construct m ms rest hdig
    have hlen : ('§' :: ' ' :: ((m :: ms) ++ ' ' :: rest)).length =
        (' ' :: ((m :: ms) ++ ' ' :: rest)).length + 1 := by
      rw [List.length_cons]
    rw [subSecRefs, hlen, subSecGo, hmatch]
    have hnomark : subSecGo (' ' :: ((m :: ms) ++ ' ' :: rest)).length
        (rest.dropWhile isSpacePy) = rest.dropWhile isSpacePy :=
      subSecGo_no_mark _ _ (fun c hc => hmark c (mem_dropWhile_sub hc))
    show stripL (subSecGo (' ' :: ((m :: ms) ++ ' ' :: rest)).length
        (rest.dropWhile isSpacePy)) = stripL rest
    rw [hnomark, stripL, stripL, dropWhile_idem]
  · decide

theorem sectionHeading_strips_all_refs_witness :
    stripL (subSecRefs ('§' :: ' ' :: (['1', '.', '5'] ++
        ' ' :: ['S', 'c', 'o', 'p', 'e', '.']))) =
      stripL ['S', 'c', 'o', 'p', 'e', '.'] :=
  sectionHeading_strips_all_refs.1 ['1', '.', '5'] ['S', 'c', 'o', 'p', 'e', '.']
    (by decide) (by decide) (by decide)

/-! ## Idempotence of a re-parse (claim C4)

A second parse of the same document replays the same traversal; every
get-or-create hits the row the first run created (returning the same
identity) and every section upsert rewrites the same values.  The
development below proves this by a simulation between the first run's
intermediate states `u` and the second run's states `v`: the second run
never changes the structural tables or the section key layout, and its
section writes land on the same positions with the same values. -/

/-- The immutable part of a section row: rowid, owning part, number.
Lookups and update targets depend only on this triple. -/
def secTriple (r : SectionRow) : Nat × Nat × String :=
  (r.id, r.part_id, r.section_number)

/-- The key layout of the sections table. -/
def layout (l : List SectionRow) : List (Nat × Nat × String) := l.map secTriple

/-- One list extends another on the right (rows are only appended). -/
def ListExt {α : Type} (l₁ l₂ : List α) : Prop := ∃ t, l₂ = l₁ ++ t

/-- The first run only appends structural rows and only appends section
keys. -/
structure DBLe (a b : DB) : Prop where
  titles : ListExt a.titles b.titles
  chapters : ListExt a.chapters b.chapters
  subchapters : ListExt a.subchapters b.subchapters
  parts : ListExt a.parts b.parts
  sections : ListExt (layout a.sections) (layout b.sections)

/-- The second run's state agrees with the first run's final state `s` on
all structural tables and on the section key layout. -/
structure Run2At (s v : DB) : Prop where
  titles : v.titles = s.titles
  chapters : v.chapters = s.chapters
  subchapters : v.subchapters = s.subchapters
  parts : v.parts = s.parts
  sections : layout v.sections = layout s.sections

/-- Pointwise relation of the section tables across the two runs: every
position is either rewritten identically by the replayed computation or
untouched by it in both runs. -/
def ValAgree (u u' v v' : DB) : Prop :=
  ∀ i : Nat, v'.sections[i]? = u'.sections[i]? ∨
    (v'.sections[i]? = v.sections[i]? ∧ u'.sections[i]? = u.sections[i]?)

/-- Rowids of the sections table are the positions (SQLite rowids
`1..n`), as every state reachable from an ingestion-produced store has. -/
def WFsec (db : DB) : Prop :=
  ∀ (i : Nat) (r : SectionRow), db.sections[i]? = some r → r.id = i + 1

theorem listExt_refl {α : Type} (l : List α) : ListExt l l := ⟨[], by simp⟩

theorem listExt_trans {α : Type} {l₁ l₂ l₃ : List α}
    (h₁ : ListExt l₁ l₂) (h₂ : ListExt l₂ l₃) : ListExt l₁ l₃ := by
  obtain ⟨t₁, rfl⟩ := h₁
  obtain ⟨t₂, rfl⟩ := h₂
  exact ⟨t₁ ++ t₂, by simp⟩

theorem listExt_append {α : Type} (l t : List α) : ListExt l (l ++ t) := ⟨t, rfl⟩

theorem dbLe_refl (db : DB) : DBLe db db :=
  ⟨listExt_refl _, listExt_refl _, listExt_refl _, listExt_refl _, listExt_refl _⟩

theorem dbLe_trans {a b c : DB} (h₁ : DBLe a b) (h₂ : DBLe b c) : DBLe a c :=
  ⟨listExt_trans h₁.titles h₂.titles, listExt_trans h₁.chapters h₂.chapters,
   listExt_trans h₁.subchapters h₂.subchapters, listExt_trans h₁.parts h₂.parts,
   listExt_trans h₁.sections h₂.sections⟩

theorem valAgree_rfl {u v : DB} : ValAgree u u v v :=
  fun _ => Or.inr ⟨Eq.refl _, Eq.refl _⟩

theorem valAgree_trans {u u₁ u₂ v v₁ v₂ : DB}
    (h₁ : ValAgree u u₁ v v₁) (h₂ : ValAgree u₁ u₂ v₁ v₂) :
    ValAgree u u₂ v v₂ := by
  intro i
  rcases h₂ i with h | ⟨hv, hu⟩
  · left; exact h
  · rcases h₁ i with h' | ⟨hv', hu'⟩
    · left; rw [hv, hu, h']
    · right; exact ⟨hv.trans hv', hu.trans hu'⟩

theorem find?_of_listExt {α : Type} {p : α → Bool} {l₁ l₂ : List α} {a : α}
    (hext : ListExt l₁ l₂) (h : l₁.find? p = some a) : l₂.find? p = some a := by
  obtain ⟨t, rfl⟩ := hext
  rw [List.find?_append, h]
  rfl

theorem WFsec_of_layout {s v : DB} (hl : layout v.sections = layout s.sections)
    (hs : WFsec s) : WFsec v := by
  intro i r hr
  have hv : (layout v.sections)[i]? = some (secTriple r) := by
    rw [layout, List.getElem?_map, hr]
    rfl
  rw [hl, layout, List.getElem?_map] at hv
  cases hsr : s.sections[i]? with
  | none => rw [hsr] at hv; cases hv
  | some q =>
    rw [hsr] at hv
    have hq : secTriple q = secTriple r := Option.some.inj hv
    have := hs i q hsr
    have hid : q.id = r.id := congrArg (fun x => x.1) hq
    rw [← hid, this]

theorem secTriple_eq {x y : SectionRow} (h : secTriple x = secTriple y) :
    x.id = y.id ∧ x.part_id = y.part_id ∧ x.section_number = y.section_number := by
  simp only [secTriple, Prod.mk.injEq] at h
  exact h

/-- The section upsert's key predicate. -/
def secKeyP (pid : Nat) (num : String) (r : SectionRow) : Bool :=
  r.part_id == pid && r.section_number == num

/-- The section upsert's `UPDATE ... WHERE id = K` map. -/
def secUpd (K : Nat) (heading content : String) (auth src node : Option String)
    (r : SectionRow) : SectionRow :=
  if r.id == K then
    { r with section_heading := heading, section_content := content,
             authority_citation := auth, source_citation := src,
             xml_node_id := node }
  else r

theorem insert_section_eq_found {db : DB} {pid : Nat} {num : String}
    (heading content : String) (auth src node : Option String) {r : SectionRow}
    (h : db.sections.find? (secKeyP pid num) = some r) :
    insert_section db pid num heading content auth src node =
      (r.id, { db with sections :=
        db.sections.map (secUpd r.id heading content auth src node) }) := by
  rw [insert_section]
  rw [show (db.sections.find? fun q => q.part_id == pid && q.section_number == num) =
    db.sections.find? (secKeyP pid num) from rfl, h]
  rfl

theorem insert_section_eq_missing {db : DB} {pid : Nat} {num : String}
    (heading content : String) (auth src node : Option String)
    (h : db.sections.find? (secKeyP pid num) = none) :
    insert_section db pid num heading content auth src node =
      (db.sections.length + 1, { db with sections := db.sections ++
        [⟨db.sections.length + 1, pid, num, heading, content, auth, src, node⟩] }) := by
  rw [insert_section]
  rw [show (db.sections.find? fun q => q.part_id == pid && q.section_number == num) =
    db.sections.find? (secKeyP pid num) from rfl, h]

theorem secTriple_secUpd (K : Nat) (heading content : String)
    (auth src node : Option String) (r : SectionRow) :
    secTriple (secUpd K heading content auth src node r) = secTriple r := by
  rw [secUpd]
  split <;> rfl

theorem layout_map_secUpd (l : List SectionRow) (K : Nat) (heading content : String)
    (auth src node : Option String) :
    layout (l.map (secUpd K heading content auth src node)) = layout l := by
  rw [layout, layout, List.map_map]
  exact List.map_congr_left (fun r _ => secTriple_secUpd K heading content auth src node r)

theorem layout_append (l₁ l₂ : List SectionRow) :
    layout (l₁ ++ l₂) = layout l₁ ++ layout l₂ := List.map_append _ _ _

theorem secKeyP_congr {pid : Nat} {num : String} {x y : SectionRow}
    (h : secTriple x = secTriple y) : secKeyP pid num x = secKeyP pid num y := by
  obtain ⟨_, h₂, h₃⟩ := secTriple_eq h
  rw [secKeyP, secKeyP, h₂, h₃]

theorem layout_cons_decomp {x : Nat × Nat × String} {M : List (Nat × Nat × String)} :
    ∀ {L : List SectionRow}, layout L = x :: M →
      ∃ w L', L = w :: L' ∧ secTriple w = x ∧ layout L' = M := by
  intro L h
  cases L with
  | nil => cases h
  | cons w L' =>
    rw [layout, List.map_cons] at h
    obtain ⟨h₁, h₂⟩ := List.cons.inj h
    exact ⟨w, L', rfl, h₁, h₂⟩

theorem layout_append_decomp {A B : List (Nat × Nat × String)} :
    ∀ {L : List SectionRow}, layout L = A ++ B →
      ∃ L₁ L₂, L = L₁ ++ L₂ ∧ layout L₁ = A ∧ layout L₂ = B := by
  induction A with
  | nil =>
    intro L h
    exact ⟨[], L, rfl, rfl, h⟩
  | cons a A' ih =>
    intro L h
    rw [List.cons_append] at h
    obtain ⟨w, L', rfl, hw, hL'⟩ := layout_cons_decomp h
    obtain ⟨L₁, L₂, rfl, h₁, h₂⟩ := ih hL'
    refine ⟨w :: L₁, L₂, rfl, ?_, h₂⟩
    rw [layout, List.map_cons, hw]
    rw [layout] at h₁
    rw [h₁]

theorem find?_congr_layout (pid : Nat) (num : String) :
    ∀ {l L : List SectionRow}, layout l = layout L →
      Option.map secTriple (l.find? (secKeyP pid num)) =
        Option.map secTriple (L.find? (secKeyP pid num)) := by
  intro l
  induction l with
  | nil =>
    intro L h
    cases L with
    | nil => rfl
    | cons w L' => cases h
  | cons x xs ih =>
    intro L h
    rw [layout, List.map_cons] at h
    obtain ⟨w, L', rfl, hw, hL'⟩ := layout_cons_decomp h.symm
    rw [List.find?_cons, List.find?_cons]
    have hp : secKeyP pid num x = secKeyP pid num w := secKeyP_congr hw.symm
    cases hx : secKeyP pid num x with
    | true =>
      rw [← hp, hx]
      simp [hw.symm]
    | false =>
      rw [← hp, hx]
      exact ih hL'.symm

theorem find?_none_of_layout {pid : Nat} {num : String} {l L : List SectionRow}
    (h : layout l = layout L) (hn : l.find? (secKeyP pid num) = none) :
    L.find? (secKeyP pid num) = none := by
  have := find?_congr_layout pid num h
  rw [hn] at this
  cases hL : L.find? (secKeyP pid num) with
  | none => rfl
  | some w => rw [hL] at this; cases this

theorem find?_some_of_layout {pid : Nat} {num : String} {l L : List SectionRow}
    {r : SectionRow} (h : layout l = layout L)
    (hf : l.find? (secKeyP pid num) = some r) :
    ∃ R, L.find? (secKeyP pid num) = some R ∧ secTriple R = secTriple r := by
  have := find?_congr_layout pid num h
  rw [hf] at this
  cases hL : L.find? (secKeyP pid num) with
  | none => rw [hL] at this; cases this
  | some w =>
    rw [hL] at this
    exact ⟨w, rfl, (Option.some.inj this).symm⟩

/-! First-run step lemmas: every persistence operation only appends
structural rows and appends section keys, and the gets/creates leave the
section table untouched. -/

theorem goc_title_step (db : DB) (n : Int) (name : String) (now : Nat) :
    DBLe db (get_or_create_title db n name now).2 ∧
    ((get_or_create_title db n name now).2).sections = db.sections := by
  rw [get_or_create_title]
  cases db.titles.find? (fun r => r.title_number == n) with
  | some r => exact ⟨dbLe_refl db, rfl⟩
  | none =>
    exact ⟨⟨listExt_append _ _, listExt_refl _, listExt_refl _, listExt_refl _,
      listExt_refl _⟩, rfl⟩

theorem goc_chapter_step (db : DB) (tid : Nat) (num name : String) :
    DBLe db (get_or_create_chapter db tid num name).2 ∧
    ((get_or_create_chapter db tid num name).2).sections = db.sections := by
  rw [get_or_create_chapter]
  cases db.chapters.find? (fun r => r.title_id == tid && r.chapter_number == num) with
  | some r => exact ⟨dbLe_refl db, rfl⟩
  | none =>
    exact ⟨⟨listExt_refl _, listExt_append _ _, listExt_refl _, listExt_refl _,
      listExt_refl _⟩, rfl⟩

theorem goc_subchapter_step (db : DB) (cid : Nat) (letter name : String) :
    DBLe db (get_or_create_subchapter db cid letter name).2 ∧
    ((get_or_create_subchapter db cid letter name).2).sections = db.sections := by
  rw [get_or_create_subchapter]
  cases db.subchapters.find?
      (fun r => r.chapter_id == cid && r.subchapter_letter == letter) with
  | some r => exact ⟨dbLe_refl db, rfl⟩
  | none =>
    exact ⟨⟨listExt_refl _, listExt_refl _, listExt_append _ _, listExt_refl _,
      listExt_refl _⟩, rfl⟩

theorem goc_part_step (db : DB) (cid : Nat) (scid : Option Nat) (pn : Nat)
    (name : String) (auth src : Option String) :
    DBLe db (get_or_create_part db cid scid pn name auth src).2 ∧
    ((get_or_create_part db cid scid pn name auth src).2).sections = db.sections := by
  rw [get_or_create_part]
  cases db.parts.find? (fun r => r.chapter_id == cid && r.part_number == pn) with
  | some r => exact ⟨dbLe_refl db, rfl⟩
  | none =>
    exact ⟨⟨listExt_refl _, listExt_refl _, listExt_refl _, listExt_append _ _,
      listExt_refl _⟩, rfl⟩

theorem insert_section_step (db : DB) (pid : Nat) (num heading content : String)
    (auth src node : Option String) :
    DBLe db (insert_section db pid num heading content auth src node).2 ∧
    (WFsec db → WFsec (insert_section db pid num heading content auth src node).2) := by
  cases hf : db.sections.find? (secKeyP pid num) with
  | some r =>
    rw [insert_section_eq_found heading content auth src node hf]
    constructor
    · exact ⟨listExt_refl _, listExt_refl _, listExt_refl _, listExt_refl _,
        by rw [layout_map_secUpd]; exact listExt_refl _⟩
    · intro hWF i q hq
      have hq₁ : (db.sections.map (secUpd r.id heading content auth src node))[i]? =
          some q := hq
      rw [List.getElem?_map] at hq₁
      cases hdb : db.sections[i]? with
      | none => rw [hdb] at hq₁; cases hq₁
      | some x =>
        rw [hdb] at hq₁
        have hx : secUpd r.id heading content auth src node x = q :=
          Option.some.inj hq₁
        have hid : q.id = x.id := by
          rw [← hx, secUpd]
          split <;> rfl
        rw [hid]
        exact hWF i x hdb
  | none =>
    rw [insert_section_eq_missing heading content auth src node hf]
    constructor
    · exact ⟨listExt_refl _, listExt_refl _, listExt_refl _, listExt_refl _,
        by rw [layout_append]; exact listExt_append _ _⟩
    · intro hWF i q hq
      have hq₁ : (db.sections ++
          [⟨db.sections.length + 1, pid, num, heading, content, auth, src, node⟩])[i]? =
          some q := hq
      by_cases hi : i < db.sections.length
      · rw [List.getElem?_append_left hi] at hq₁
        exact hWF i q hq₁
      · have hge : db.sections.length ≤ i := Nat.le_of_not_lt hi
        rw [List.getElem?_append_right hge] at hq₁
        cases hd : i - db.sections.length with
        | zero =>
          rw [hd] at hq₁
          have hq' := Option.some.inj hq₁
          rw [← hq']
          show db.sections.length + 1 = i + 1
          omega
        | succ m =>
          rw [hd] at hq₁
          simp at hq₁

/-! Second-run simulation lemmas: replaying an operation against the
first run's final state returns the same identity and leaves the state
unchanged (gets/creates) or rewrites the same positions (section
upserts). -/

theorem goc_title_sim (n : Int) (name name' : String) (now now' : Nat)
    {s u v : DB} (hch : DBLe (get_or_create_title u n name now).2 s)
    (hv : Run2At s v) :
    get_or_create_title v n name' now' = ((get_or_create_title u n name now).1, v) := by
  cases hfu : u.titles.find? (fun r => r.title_number == n) with
  | some r =>
    have hru : get_or_create_title u n name now = (r.id, u) := by
      rw [get_or_create_title, hfu]
    rw [hru] at hch
    have hfv : v.titles.find? (fun r => r.title_number == n) = some r := by
      rw [hv.titles]
      exact find?_of_listExt hch.titles hfu
    rw [hru, get_or_create_title, hfv]
  | none =>
    have hru : get_or_create_title u n name now =
        (u.titles.length + 1,
         { u with titles := u.titles ++ [⟨u.titles.length + 1, n, name, now⟩] }) := by
      rw [get_or_create_title, hfu]
    rw [hru] at hch
    have hext : ListExt (u.titles ++ [(⟨u.titles.length + 1, n, name, now⟩ : TitleRow)])
        s.titles := hch.titles
    have hfind : (u.titles ++ [(⟨u.titles.length + 1, n, name, now⟩ : TitleRow)]).find?
        (fun r => r.title_number == n) =
        some ⟨u.titles.length + 1, n, name, now⟩ := by
      rw [List.find?_append, hfu]
      simp [List.find?]
    have hfv : v.titles.find? (fun r => r.title_number == n) =
        some ⟨u.titles.length + 1, n, name, now⟩ := by
      rw [hv.titles]
      exact find?_of_listExt hext hfind
    rw [hru, get_or_create_title, hfv]

theorem goc_chapter_sim (tid : Nat) (num name name' : String)
    {s u v : DB} (hch : DBLe (get_or_create_chapter u tid num name).2 s)
    (hv : Run2At s v) :
    get_or_create_chapter v tid num name' =
      ((get_or_create_chapter u tid num name).1, v) := by
  cases hfu : u.chapters.find? (fun r => r.title_id == tid && r.chapter_number == num) with
  | some r =>
    have hru : get_or_create_chapter u tid num name = (r.id, u) := by
      rw [get_or_create_chapter, hfu]
    rw [hru] at hch
    have hfv : v.chapters.find? (fun r => r.title_id == tid && r.chapter_number == num) =
        some r := by
      rw [hv.chapters]
      exact find?_of_listExt hch.chapters hfu
    rw [hru, get_or_create_chapter, hfv]
  | none =>
    have hru : get_or_create_chapter u tid num name =
        (u.chapters.length + 1,
         { u with chapters := u.chapters ++ [⟨u.chapters.length + 1, tid, num, name⟩] }) := by
      rw [get_or_create_chapter, hfu]
    rw [hru] at hch
    have hext : ListExt
        (u.chapters ++ [(⟨u.chapters.length + 1, tid, num, name⟩ : ChapterRow)])
        s.chapters := hch.chapters
    have hfind : (u.chapters ++
        [(⟨u.chapters.length + 1, tid, num, name⟩ : ChapterRow)]).find?
        (fun r => r.title_id == tid && r.chapter_number == num) =
        some ⟨u.chapters.length + 1, tid, num, name⟩ := by
      rw [List.find?_append, hfu]
      simp [List.find?]
    have hfv : v.chapters.find? (fun r => r.title_id == tid && r.chapter_number == num) =
        some ⟨u.chapters.length + 1, tid, num, name⟩ := by
      rw [hv.chapters]
      exact find?_of_listExt hext hfind
    rw [hru, get_or_create_chapter, hfv]

theorem goc_subchapter_sim (cid : Nat) (letter name name' : String)
    {s u v : DB} (hch : DBLe (get_or_create_subchapter u cid letter name).2 s)
    (hv : Run2At s v) :
    get_or_create_subchapter v cid letter name' =
      ((get_or_create_subchapter u cid letter name).1, v) := by
  cases hfu : u.subchapters.find?
      (fun r => r.chapter_id == cid && r.subchapter_letter == letter) with
  | some r =>
    have hru : get_or_create_subchapter u cid letter name = (r.id, u) := by
      rw [get_or_create_subchapter, hfu]
    rw [hru] at hch
    have hfv : v.subchapters.find?
        (fun r => r.chapter_id == cid && r.subchapter_letter == letter) = some r := by
      rw [hv.subchapters]
      exact find?_of_listExt hch.subchapters hfu
    rw [hru, get_or_create_subchapter, hfv]
  | none =>
    have hru : get_or_create_subchapter u cid letter name =
        (u.subchapters.length + 1,
         { u with subchapters := u.subchapters ++
            [⟨u.subchapters.length + 1, cid, letter, name⟩] }) := by
      rw [get_or_create_subchapter, hfu]
    rw [hru] at hch
    have hext : ListExt (u.subchapters ++
        [(⟨u.subchapters.length + 1, cid, letter, name⟩ : SubchapterRow)])
        s.subchapters := hch.subchapters
    have hfind : (u.subchapters ++
        [(⟨u.subchapters.length + 1, cid, letter, name⟩ : SubchapterRow)]).find?
        (fun r => r.chapter_id == cid && r.subchapter_letter == letter) =
        some ⟨u.subchapters.length + 1, cid, letter, name⟩ := by
      rw [List.find?_append, hfu]
      simp [List.find?]
    have hfv : v.subchapters.find?
        (fun r => r.chapter_id == cid && r.subchapter_letter == letter) =
        some ⟨u.subchapters.length + 1, cid, letter, name⟩ := by
      rw [hv.subchapters]
      exact find?_of_listExt hext hfind
    rw [hru, get_or_create_subchapter, hfv]

theorem goc_part_sim (cid : Nat) (scid scid' : Option Nat) (pn : Nat)
    (name name' : String) (auth auth' src src' : Option String)
    {s u v : DB} (hch : DBLe (get_or_create_part u cid scid pn name auth src).2 s)
    (hv : Run2At s v) :
    get_or_create_part v cid scid' pn name' auth' src' =
      ((get_or_create_part u cid scid pn name auth src).1, v) := by
  cases hfu : u.parts.find? (fun r => r.chapter_id == cid && r.part_number == pn) with
  | some r =>
    have hru : get_or_create_part u cid scid pn name auth src = (r.id, u) := by
      rw [get_or_create_part, hfu]
    rw [hru] at hch
    have hfv : v.parts.find? (fun r => r.chapter_id == cid && r.part_number == pn) =
        some r := by
      rw [hv.parts]
      exact find?_of_listExt hch.parts hfu
    rw [hru, get_or_create_part, hfv]
  | none =>
    have hru : get_or_create_part u cid scid pn name auth src =
        (u.parts.length + 1,
         { u with parts := u.parts ++
            [⟨u.parts.length + 1, cid, scid, pn, name, auth, src⟩] }) := by
      rw [get_or_create_part, hfu]
    rw [hru] at hch
    have hext : ListExt (u.parts ++
        [(⟨u.parts.length + 1, cid, scid, pn, name, auth, src⟩ : PartRow)])
        s.parts := hch.parts
    have hfind : (u.parts ++
        [(⟨u.parts.length + 1, cid, scid, pn, name, auth, src⟩ : PartRow)]).find?
        (fun r => r.chapter_id == cid && r.part_number == pn) =
        some ⟨u.parts.length + 1, cid, scid, pn, name, auth, src⟩ := by
      rw [List.find?_append, hfu]
      simp [List.find?]
    have hfv : v.parts.find? (fun r => r.chapter_id == cid && r.part_number == pn) =
        some ⟨u.parts.length + 1, cid, scid, pn, name, auth, src⟩ := by
      rw [hv.parts]
      exact find?_of_listExt hext hfind
    rw [hru, get_or_create_part, hfv]

theorem secUpd_eq_of_triple {K : Nat} {heading content : String}
    {auth src node : Option String} {x y : SectionRow}
    (h : secTriple x = secTriple y) (hid : (x.id == K) = true) :
    secUpd K heading content auth src node x =
      secUpd K heading content auth src node y := by
  obtain ⟨h₁, h₂, h₃⟩ := secTriple_eq h
  have hid' : (y.id == K) = true := by rw [← h₁]; exact hid
  rw [secUpd, secUpd, if_pos hid, if_pos hid']
  cases x with
  | mk xi xp xn xh xc xa xs xd =>
    cases y with
    | mk yi yp yn yh yc ya ys yd =>
      simp only at h₁ h₂ h₃
      simp [h₁, h₂, h₃]

theorem secUpd_skip {K : Nat} {heading content : String}
    {auth src node : Option String} {x : SectionRow}
    (h : (x.id == K) = false) :
    secUpd K heading content auth src node x = x := by
  rw [secUpd, h]
  rfl

theorem exists_getElem?_of_find? {l : List SectionRow} {p : SectionRow → Bool}
    {r : SectionRow} (h : l.find? p = some r) : ∃ j : Nat, l[j]? = some r := by
  have hmem := List.mem_of_find?_eq_some h
  obtain ⟨j, hj⟩ := List.get?_of_mem hmem
  exact ⟨j, by rw [← List.get?_eq_getElem?]; exact hj⟩

theorem getElem?_lt_length {l : List SectionRow} {i : Nat} {r : SectionRow}
    (h : l[i]? = some r) : i < l.length := by
  by_contra hcon
  rw [List.getElem?_eq_none_iff.mpr (Nat.le_of_not_lt hcon)] at h
  cases h

/-- Replaying a section upsert against the first run's final state: the
same identity is returned, the state keeps the final layout, and the
write lands on the same position with the same values. -/
theorem insert_section_sim (pid : Nat) (num heading content : String)
    (auth src node : Option String) {s u v : DB}
    (hWFu : WFsec u) (hWFs : WFsec s)
    (hch : DBLe (insert_section u pid num heading content auth src node).2 s)
    (hv : Run2At s v) :
    (insert_section v pid num heading content auth src node).1 =
      (insert_section u pid num heading content auth src node).1 ∧
    Run2At s (insert_section v pid num heading content auth src node).2 ∧
    ValAgree u (insert_section u pid num heading content auth src node).2
      v (insert_section v pid num heading content auth src node).2 := by
  have hWFv : WFsec v := WFsec_of_layout hv.sections hWFs
  cases hfu : u.sections.find? (secKeyP pid num) with
  | some r =>
    have hru := insert_section_eq_found heading content auth src node hfu
    rw [hru] at hch
    have hlx : ListExt (layout u.sections) (layout s.sections) := by
      have h : ListExt (layout (u.sections.map
          (secUpd r.id heading content auth src node))) (layout s.sections) :=
        hch.sections
      rwa [layout_map_secUpd] at h
    obtain ⟨t, hlt⟩ := hlx
    have hlv : layout v.sections = layout u.sections ++ t := by
      rw [hv.sections, hlt]
    obtain ⟨v₁, v₂, hvs, hl₁, hl₂⟩ := layout_append_decomp hlv
    obtain ⟨R, hfv₁, hTR⟩ := find?_some_of_layout hl₁.symm hfu
    have hfv : v.sections.find? (secKeyP pid num) = some R := by
      rw [hvs, List.find?_append, hfv₁]
      rfl
    have hRid : R.id = r.id := (secTriple_eq hTR).1
    have hrv := insert_section_eq_found heading content auth src node hfv
    obtain ⟨j, hj⟩ := exists_getElem?_of_find? hfu
    have hrid : r.id = j + 1 := hWFu j r hj
    have hjlen : j < u.sections.length := getElem?_lt_length hj
    refine ⟨?_, ?_, ?_⟩
    · rw [hrv, hru]
      exact hRid
    · rw [hrv]
      refine ⟨hv.titles, hv.chapters, hv.subchapters, hv.parts, ?_⟩
      show layout (v.sections.map (secUpd R.id heading content auth src node)) =
        layout s.sections
      rw [layout_map_secUpd, hv.sections]
    · rw [hru, hrv]
      intro i
      show (v.sections.map (secUpd R.id heading content auth src node))[i]? =
          (u.sections.map (secUpd r.id heading content auth src node))[i]? ∨
        ((v.sections.map (secUpd R.id heading content auth src node))[i]? =
            v.sections[i]? ∧
          (u.sections.map (secUpd r.id heading content auth src node))[i]? =
            u.sections[i]?)
      rw [hRid, List.getElem?_map, List.getElem?_map]
      cases hui : u.sections[i]? with
      | some x =>
        have hilen : i < u.sections.length := getElem?_lt_length hui
        have hwi : ∃ w, v.sections[i]? = some w ∧ secTriple w = secTriple x := by
          have h₁ : (layout u.sections)[i]? = some (secTriple x) := by
            rw [layout, List.getElem?_map, hui]
            rfl
          have h₂ : (layout v.sections)[i]? = some (secTriple x) := by
            rw [hlv, List.getElem?_append_left (by
              rw [layout, List.length_map]; exact hilen)]
            exact h₁
          rw [layout, List.getElem?_map] at h₂
          cases hvi : v.sections[i]? with
          | none => rw [hvi] at h₂; cases h₂
          | some w =>
            rw [hvi] at h₂
            exact ⟨w, rfl, Option.some.inj h₂⟩
        obtain ⟨w, hvi, hTw⟩ := hwi
        rw [hvi]
        by_cases hxid : (x.id == r.id) = true
        · left
          show some (secUpd r.id heading content auth src node w) =
            some (secUpd r.id heading content auth src node x)
          have hwid : (w.id == r.id) = true := by
            rw [(secTriple_eq hTw).1]
            exact hxid
          rw [secUpd_eq_of_triple hTw hwid]
        · right
          have hxid' : (x.id == r.id) = false := Bool.eq_false_iff.mpr hxid
          have hwid : (w.id == r.id) = false := by
            rw [(secTriple_eq hTw).1]
            exact hxid'
          constructor
          · show some (secUpd r.id heading content auth src node w) = some w
            rw [secUpd_skip hwid]
          · show some (secUpd r.id heading content auth src node x) = some x
            rw [secUpd_skip hxid']
      | none =>
        have hilen : u.sections.length ≤ i := List.getElem?_eq_none_iff.mp hui
        right
        refine ⟨?_, rfl⟩
        cases hvi : v.sections[i]? with
        | none => rfl
        | some y =>
          have hyid : y.id = i + 1 := hWFv i y hvi
          have hne : (y.id == r.id) = false := by
            rw [hyid, hrid]
            simp
            omega
          show some (secUpd r.id heading content auth src node y) = some y
          rw [secUpd_skip hne]
  | none =>
    have hru := insert_section_eq_missing heading content auth src node hfu
    rw [hru] at hch
    have hnew : secTriple (⟨u.sections.length + 1, pid, num, heading, content,
        auth, src, node⟩ : SectionRow) = (u.sections.length + 1, pid, num) := rfl
    have hlx : ListExt (layout u.sections ++ [(u.sections.length + 1, pid, num)])
        (layout s.sections) := by
      have h : ListExt (layout (u.sections ++ [⟨u.sections.length + 1, pid, num,
          heading, content, auth, src, node⟩])) (layout s.sections) := hch.sections
      rwa [layout_append] at h
    obtain ⟨t, hlt⟩ := hlx
    have hlv : layout v.sections =
        layout u.sections ++ ((u.sections.length + 1, pid, num) :: t) := by
      rw [hv.sections, hlt, List.append_assoc]
      rfl
    obtain ⟨v₁, vrest, hvs, hl₁, hl₂⟩ := layout_append_decomp hlv
    obtain ⟨w, v₂, hvrest, hTw, hl₃⟩ := layout_cons_decomp hl₂
    subst hvrest
    have hfv₁ : v₁.find? (secKeyP pid num) = none :=
      find?_none_of_layout hl₁.symm hfu
    have hpw : secKeyP pid num w = true := by
      have h₁ : w.part_id = pid := congrArg (fun q => q.2.1) hTw
      have h₂ : w.section_number = num := congrArg (fun q => q.2.2) hTw
      rw [secKeyP, h₁, h₂]
      simp
    have hfv : v.sections.find? (secKeyP pid num) = some w := by
      rw [hvs, List.find?_append, hfv₁, List.find?_cons, hpw]
      rfl
    have hwid : w.id = u.sections.length + 1 := congrArg (fun q => q.1) hTw
    have hrv := insert_section_eq_found heading content auth src node hfv
    have hvlen₁ : v₁.length = u.sections.length := by
      have := congrArg List.length hl₁
      rwa [layout, layout, List.length_map, List.length_map] at this
    refine ⟨?_, ?_, ?_⟩
    · rw [hrv, hru]
      exact hwid
    · rw [hrv]
      refine ⟨hv.titles, hv.chapters, hv.subchapters, hv.parts, ?_⟩
      show layout (v.sections.map (secUpd w.id heading content auth src node)) =
        layout s.sections
      rw [layout_map_secUpd, hv.sections]
    · rw [hru, hrv]
      intro i
      show (v.sections.map (secUpd w.id heading content auth src node))[i]? =
          (u.sections ++ [⟨u.sections.length + 1, pid, num, heading, content,
            auth, src, node⟩])[i]? ∨
        ((v.sections.map (secUpd w.id heading content auth src node))[i]? =
            v.sections[i]? ∧
          (u.sections ++ [⟨u.sections.length + 1, pid, num, heading, content,
            auth, src, node⟩])[i]? = u.sections[i]?)
      rw [List.getElem?_map]
      by_cases hiN : i < u.sections.length
      · right
        constructor
        · cases hvi : v.sections[i]? with
          | none => rfl
          | some y =>
            have hyid : y.id = i + 1 := hWFv i y hvi
            have hne : (y.id == w.id) = false := by
              rw [hyid, hwid]
              simp
              omega
            show some (secUpd w.id heading content auth src node y) = some y
            rw [secUpd_skip hne]
        · rw [List.getElem?_append_left hiN]
      · by_cases hiEq : i = u.sections.length
        · subst hiEq
          left
          have huN : (u.sections ++ [(⟨u.sections.length + 1, pid, num, heading,
              content, auth, src, node⟩ : SectionRow)])[u.sections.length]? =
              some ⟨u.sections.length + 1, pid, num, heading, content, auth,
                src, node⟩ := by
            rw [List.getElem?_append_right (Nat.le_refl _), Nat.sub_self]
            exact List.getElem?_cons_zero
          have hvN : v.sections[u.sections.length]? = some w := by
            rw [hvs, List.getElem?_append_right (Nat.le_of_eq hvlen₁), hvlen₁,
              Nat.sub_self]
            exact List.getElem?_cons_zero
          rw [huN, hvN]
          show some (secUpd w.id heading content auth src node w) =
            some (⟨u.sections.length + 1, pid, num, heading, content, auth,
              src, node⟩ : SectionRow)
          have hwW : (w.id == w.id) = true := by simp
          rw [secUpd, if_pos hwW]
          have h₁ : w.part_id = pid := congrArg (fun q => q.2.1) hTw
          have h₂ : w.section_number = num := congrArg (fun q => q.2.2) hTw
          cases w with
          | mk wi wp wn wh wc wa ws wd =>
            simp only at hwid h₁ h₂
            simp [hwid, h₁, h₂]
        · have hgt : u.sections.length + 1 ≤ i := by omega
          right
          constructor
          · cases hvi : v.sections[i]? with
            | none => rfl
            | some y =>
              have hyid : y.id = i + 1 := hWFv i y hvi
              have hne : (y.id == w.id) = false := by
                rw [hyid, hwid]
                simp
                omega
              show some (secUpd w.id heading content auth src node y) = some y
              rw [secUpd_skip hne]
          · have h₁ : (u.sections ++ [(⟨u.sections.length + 1, pid, num, heading,
                content, auth, src, node⟩ : SectionRow)])[i]? = none := by
              rw [List.getElem?_eq_none_iff]
              rw [List.length_append]
              simp
              omega
            have h₂ : u.sections[i]? = none := by
              rw [List.getElem?_eq_none_iff]
              omega
            rw [h₁, h₂]

/-! First-run step lemmas for the traversal drivers: each driver only
appends structural rows / section keys and preserves the rowid
well-formedness of the sections table. -/

theorem WFsec_of_sections_eq {a b : DB} (h : b.sections = a.sections)
    (ha : WFsec a) : WFsec b := by
  intro i r hr
  rw [h] at hr
  exact ha i r hr

theorem process_section_step (e : Elem) (pid : Nat) (db : DB) :
    DBLe db (process_section e pid db).2 ∧
    (WFsec db → WFsec (process_section e pid db).2) := by
  cases hsn : sectionNumberOf e with
  | none =>
    simp only [process_section, hsn]
    exact ⟨dbLe_refl db, fun h => h⟩
  | some num =>
    simp only [process_section, hsn]
    exact insert_section_step db pid num (sectionHeadingOf e)
      (extract_section_content e) (extract_authority e) (extract_source e)
      (attrGet e "NODE")

theorem process_sections_step : ∀ (es : List Elem) (pid : Nat) (db : DB),
    DBLe db (process_sections es pid db).2 ∧
    (WFsec db → WFsec (process_sections es pid db).2) := by
  intro es
  induction es with
  | nil => intro pid db; exact ⟨dbLe_refl db, fun h => h⟩
  | cons e rest ih =>
    intro pid db
    rcases hp : process_section e pid db with ⟨ok, db₁⟩
    rcases hr : process_sections rest pid db₁ with ⟨n, db₂⟩
    have hunfold : process_sections (e :: rest) pid db =
        ((if ok then 1 else 0) + n, db₂) := by
      simp only [process_sections, hp, hr]
    rw [hunfold]
    have h₁ := process_section_step e pid db
    rw [hp] at h₁
    have h₂ := ih pid db₁
    rw [hr] at h₂
    exact ⟨dbLe_trans h₁.1 h₂.1, fun h => h₂.2 (h₁.2 h)⟩

theorem process_part_step (e : Elem) (cid : Nat) (scid : Option Nat) (db : DB) :
    DBLe db (process_part e cid scid db).2 ∧
    (WFsec db → WFsec (process_part e cid scid db).2) := by
  cases hfc : findChild e "HEAD" with
  | none =>
    simp only [process_part, hfc]
    exact ⟨dbLe_refl db, fun h => h⟩
  | some hd =>
    cases hpn : partNumberOf (cleanTextOpt hd.text) (attrGet e "N") with
    | none =>
      simp only [process_part, hfc, hpn]
      exact ⟨dbLe_refl db, fun h => h⟩
    | some pn =>
      rcases hg : get_or_create_part db cid scid pn (cleanTextOpt hd.text)
          (extract_authority e) (extract_source e) with ⟨pid, db₁⟩
      simp only [process_part, hfc, hpn, hg]
      have hgs := goc_part_step db cid scid pn (cleanTextOpt hd.text)
        (extract_authority e) (extract_source e)
      rw [hg] at hgs
      have hps := process_sections_step (findAllDesc (isTyped "DIV8" "SECTION") e)
        pid db₁
      exact ⟨dbLe_trans hgs.1 hps.1, fun h => hps.2 (WFsec_of_sections_eq hgs.2 h)⟩

theorem process_parts_step : ∀ (es : List Elem) (cid : Nat) (scid : Option Nat)
    (db : DB), DBLe db (process_parts es cid scid db).2 ∧
    (WFsec db → WFsec (process_parts es cid scid db).2) := by
  intro es
  induction es with
  | nil => intro cid scid db; exact ⟨dbLe_refl db, fun h => h⟩
  | cons e rest ih =>
    intro cid scid db
    rcases hp : process_part e cid scid db with ⟨n, db₁⟩
    rcases hr : process_parts rest cid scid db₁ with ⟨m, db₂⟩
    have hunfold : process_parts (e :: rest) cid scid db = (n + m, db₂) := by
      simp only [process_parts, hp, hr]
    rw [hunfold]
    have h₁ := process_part_step e cid scid db
    rw [hp] at h₁
    have h₂ := ih cid scid db₁
    rw [hr] at h₂
    exact ⟨dbLe_trans h₁.1 h₂.1, fun h => h₂.2 (h₁.2 h)⟩

theorem process_subchapter_step (e : Elem) (cid : Nat) (db : DB) :
    DBLe db (process_subchapter e cid db).2 ∧
    ((process_subchapter e cid db).2).sections = db.sections := by
  cases hfc : findChild e "HEAD" with
  | none =>
    simp only [process_subchapter, hfc]
    exact ⟨dbLe_refl db, trivial⟩
  | some hd =>
    cases hsl : subchapterLetterOf (cleanTextOpt hd.text) (attrGet e "N") with
    | none =>
      simp only [process_subchapter, hfc, hsl]
      exact ⟨dbLe_refl db, trivial⟩
    | some letter =>
      rcases hg : get_or_create_subchapter db cid letter (cleanTextOpt hd.text)
        with ⟨sid, db₁⟩
      simp only [process_subchapter, hfc, hsl, hg]
      have hgs := goc_subchapter_step db cid letter (cleanTextOpt hd.text)
      rw [hg] at hgs
      exact hgs

theorem process_subchapters_step : ∀ (es : List Elem) (cid : Nat) (db : DB),
    DBLe db (process_subchapters es cid db).2 ∧
    (WFsec db → WFsec (process_subchapters es cid db).2) := by
  intro es
  induction es with
  | nil => intro cid db; exact ⟨dbLe_refl db, fun h => h⟩
  | cons e rest ih =>
    intro cid db
    rcases hp : process_subchapter e cid db with ⟨sidOpt, db₁⟩
    have h₁ := process_subchapter_step e cid db
    rw [hp] at h₁
    cases sidOpt with
    | some sid =>
      rcases hq : process_parts (findAllDesc (isTyped "DIV5" "PART") e) cid
          (some sid) db₁ with ⟨n, db₂⟩
      rcases hr : process_subchapters rest cid db₂ with ⟨m, db₃⟩
      have hunfold : process_subchapters (e :: rest) cid db = (n + m, db₃) := by
        simp only [process_subchapters, hp, hq, hr]
      rw [hunfold]
      have h₂ := process_parts_step (findAllDesc (isTyped "DIV5" "PART") e) cid
        (some sid) db₁
      rw [hq] at h₂
      have h₃ := ih cid db₂
      rw [hr] at h₃
      exact ⟨dbLe_trans (dbLe_trans h₁.1 h₂.1) h₃.1,
        fun h => h₃.2 (h₂.2 (WFsec_of_sections_eq h₁.2 h))⟩
    | none =>
      rcases hr : process_subchapters rest cid db₁ with ⟨m, db₂⟩
      have hunfold : process_subchapters (e :: rest) cid db = (0 + m, db₂) := by
        simp only [process_subchapters, hp, hr]
      rw [hunfold]
      have h₃ := ih cid db₁
      rw [hr] at h₃
      exact ⟨dbLe_trans h₁.1 h₃.1, fun h => h₃.2 (WFsec_of_sections_eq h₁.2 h)⟩

theorem process_chapter_step (e : Elem) (tid : Nat) (db : DB) :
    DBLe db (process_chapter e tid db).2 ∧
    ((process_chapter e tid db).2).sections = db.sections := by
  cases hfc : findChild e "HEAD" with
  | none =>
    simp only [process_chapter, hfc]
    exact ⟨dbLe_refl db, trivial⟩
  | some hd =>
    cases hcn : chapterNumberOf (cleanTextOpt hd.text) (attrGet e "N") with
    | none =>
      simp only [process_chapter, hfc, hcn]
      exact ⟨dbLe_refl db, trivial⟩
    | some num =>
      rcases hg : get_or_create_chapter db tid num (cleanTextOpt hd.text)
        with ⟨cid, db₁⟩
      simp only [process_chapter, hfc, hcn, hg]
      have hgs := goc_chapter_step db tid num (cleanTextOpt hd.text)
      rw [hg] at hgs
      exact hgs

theorem process_chapter_content_step (e : Elem) (cid : Nat) (db : DB) :
    DBLe db (process_chapter_content e cid db).2 ∧
    (WFsec db → WFsec (process_chapter_content e cid db).2) := by
  rcases hs : process_subchapters (findAllDesc (isTyped "DIV4" "SUBCHAP") e) cid db
    with ⟨n₁, db₁⟩
  rcases hq : process_parts (findDirect (isTyped "DIV5" "PART") e) cid none db₁
    with ⟨n₂, db₂⟩
  have hunfold : process_chapter_content e cid db = (n₁ + n₂, db₂) := by
    simp only [process_chapter_content, hs, hq]
  rw [hunfold]
  have h₁ := process_subchapters_step (findAllDesc (isTyped "DIV4" "SUBCHAP") e) cid db
  rw [hs] at h₁
  have h₂ := process_parts_step (findDirect (isTyped "DIV5" "PART") e) cid none db₁
  rw [hq] at h₂
  exact ⟨dbLe_trans h₁.1 h₂.1, fun h => h₂.2 (h₁.2 h)⟩

theorem process_chapters_step : ∀ (es : List Elem) (tid : Nat) (db : DB),
    DBLe db (process_chapters es tid db).2 ∧
    (WFsec db → WFsec (process_chapters es tid db).2) := by
  intro es
  induction es with
  | nil => intro tid db; exact ⟨dbLe_refl db, fun h => h⟩
  | cons e rest ih =>
    intro tid db
    rcases hp : process_chapter e tid db with ⟨cidOpt, db₁⟩
    have h₁ := process_chapter_step e tid db
    rw [hp] at h₁
    cases cidOpt with
    | some cid =>
      rcases hq : process_chapter_content e cid db₁ with ⟨n, db₂⟩
      rcases hr : process_chapters rest tid db₂ with ⟨m, db₃⟩
      have hunfold : process_chapters (e :: rest) tid db = (n + m, db₃) := by
        simp only [process_chapters, hp, hq, hr]
      rw [hunfold]
      have h₂ := process_chapter_content_step e cid db₁
      rw [hq] at h₂
      have h₃ := ih tid db₂
      rw [hr] at h₃
      exact ⟨dbLe_trans (dbLe_trans h₁.1 h₂.1) h₃.1,
        fun h => h₃.2 (h₂.2 (WFsec_of_sections_eq h₁.2 h))⟩
    | none =>
      rcases hr : process_chapters rest tid db₁ with ⟨m, db₂⟩
      have hunfold : process_chapters (e :: rest) tid db = (0 + m, db₂) := by
        simp only [process_chapters, hp, hr]
      rw [hunfold]
      have h₃ := ih tid db₁
      rw [hr] at h₃
      exact ⟨dbLe_trans h₁.1 h₃.1, fun h => h₃.2 (WFsec_of_sections_eq h₁.2 h)⟩

theorem parse_title_core_step (root : Elem) (n : Int) (now : Nat) (db : DB) :
    DBLe db (parse_title_core root n now db).2 ∧
    (WFsec db → WFsec (parse_title_core root n now db).2) := by
  rcases hg : get_or_create_title db n (titleNameOf root n) now with ⟨tid, db₁⟩
  have hunfold : parse_title_core root n now db =
      process_chapters (findAllDesc (isTyped "DIV3" "CHAPTER") root) tid db₁ := by
    simp only [parse_title_core, hg]
  rw [hunfold]
  have hgs := goc_title_step db n (titleNameOf root n) now
  rw [hg] at hgs
  have h₂ := process_chapters_step (findAllDesc (isTyped "DIV3" "CHAPTER") root) tid db₁
  exact ⟨dbLe_trans hgs.1 h₂.1, fun h => h₂.2 (WFsec_of_sections_eq hgs.2 h)⟩

/-! Second-run simulation lemmas for the traversal drivers. -/

theorem process_section_sim (e : Elem) (pid : Nat) {s u v : DB}
    (hWFu : WFsec u) (hWFs : WFsec s)
    (hch : DBLe (process_section e pid u).2 s) (hv : Run2At s v) :
    (process_section e pid v).1 = (process_section e pid u).1 ∧
    Run2At s (process_section e pid v).2 ∧
    ValAgree u (process_section e pid u).2 v (process_section e pid v).2 := by
  cases hsn : sectionNumberOf e with
  | none =>
    simp only [process_section, hsn]
    exact ⟨trivial, hv, valAgree_rfl⟩
  | some num =>
    have hu : process_section e pid u = (true, (insert_section u pid num
        (sectionHeadingOf e) (extract_section_content e) (extract_authority e)
        (extract_source e) (attrGet e "NODE")).2) := by
      simp only [process_section, hsn]
    have hv' : process_section e pid v = (true, (insert_section v pid num
        (sectionHeadingOf e) (extract_section_content e) (extract_authority e)
        (extract_source e) (attrGet e "NODE")).2) := by
      simp only [process_section, hsn]
    rw [hu] at hch
    have h := insert_section_sim pid num (sectionHeadingOf e)
      (extract_section_content e) (extract_authority e) (extract_source e)
      (attrGet e "NODE") hWFu hWFs hch hv
    rw [hu, hv']
    exact ⟨rfl, h.2.1, h.2.2⟩

theorem process_sections_sim : ∀ (es : List Elem) (pid : Nat) {s u v : DB},
    WFsec u → WFsec s → DBLe (process_sections es pid u).2 s → Run2At s v →
    (process_sections es pid v).1 = (process_sections es pid u).1 ∧
    Run2At s (process_sections es pid v).2 ∧
    ValAgree u (process_sections es pid u).2 v (process_sections es pid v).2 := by
  intro es
  induction es with
  | nil =>
    intro pid s u v _ _ _ hv
    exact ⟨rfl, hv, valAgree_rfl⟩
  | cons e rest ih =>
    intro pid s u v hWFu hWFs hch hv
    rcases hp : process_section e pid u with ⟨ok, u₁⟩
    rcases hr : process_sections rest pid u₁ with ⟨nr, u₂⟩
    have hun : process_sections (e :: rest) pid u =
        ((if ok then 1 else 0) + nr, u₂) := by
      simp only [process_sections, hp, hr]
    rw [hun] at hch
    have hstep₂ := process_sections_step rest pid u₁
    rw [hr] at hstep₂
    have hch₁ : DBLe (process_section e pid u).2 s := by
      rw [hp]
      exact dbLe_trans hstep₂.1 hch
    have h₁ := process_section_sim e pid hWFu hWFs hch₁ hv
    rw [hp] at h₁
    rcases hpv : process_section e pid v with ⟨okv, v₁⟩
    rw [hpv] at h₁
    have hWFu₁ : WFsec u₁ := by
      have hst := (process_section_step e pid u).2
      rw [hp] at hst
      exact hst hWFu
    have hch₂ : DBLe (process_sections rest pid u₁).2 s := by
      rw [hr]
      exact hch
    have h₂ := ih pid hWFu₁ hWFs hch₂ h₁.2.1
    rcases hrv : process_sections rest pid v₁ with ⟨nrv, v₂⟩
    rw [hrv, hr] at h₂
    have hunv : process_sections (e :: rest) pid v =
        ((if okv then 1 else 0) + nrv, v₂) := by
      simp only [process_sections, hpv, hrv]
    rw [hun, hunv]
    have hok : okv = ok := h₁.1
    have hnr : nrv = nr := h₂.1
    rw [hok, hnr]
    exact ⟨rfl, h₂.2.1, valAgree_trans h₁.2.2 h₂.2.2⟩

theorem process_part_sim (e : Elem) (cid : Nat) (scid : Option Nat) {s u v : DB}
    (hWFu : WFsec u) (hWFs : WFsec s)
    (hch : DBLe (process_part e cid scid u).2 s) (hv : Run2At s v) :
    (process_part e cid scid v).1 = (process_part e cid scid u).1 ∧
    Run2At s (process_part e cid scid v).2 ∧
    ValAgree u (process_part e cid scid u).2 v (process_part e cid scid v).2 := by
  cases hfc : findChild e "HEAD" with
  | none =>
    simp only [process_part, hfc]
    exact ⟨trivial, hv, valAgree_rfl⟩
  | some hd =>
    cases hpn : partNumberOf (cleanTextOpt hd.text) (attrGet e "N") with
    | none =>
      simp only [process_part, hfc, hpn]
      exact ⟨trivial, hv, valAgree_rfl⟩
    | some pn =>
      rcases hg : get_or_create_part u cid scid pn (cleanTextOpt hd.text)
          (extract_authority e) (extract_source e) with ⟨pid, u₁⟩
      have hun : process_part e cid scid u =
          process_sections (findAllDesc (isTyped "DIV8" "SECTION") e) pid u₁ := by
        simp only [process_part, hfc, hpn, hg]
      rw [hun] at hch
      have hchg : DBLe (get_or_create_part u cid scid pn (cleanTextOpt hd.text)
          (extract_authority e) (extract_source e)).2 s := by
        rw [hg]
        exact dbLe_trans (process_sections_step (findAllDesc (isTyped "DIV8" "SECTION") e)
          pid u₁).1 hch
      have hgv := goc_part_sim cid scid scid pn (cleanTextOpt hd.text)
        (cleanTextOpt hd.text) (extract_authority e) (extract_authority e)
        (extract_source e) (extract_source e) hchg hv
      rw [hg] at hgv
      have hgv' : get_or_create_part v cid scid pn (cleanTextOpt hd.text)
          (extract_authority e) (extract_source e) = (pid, v) := hgv
      have hWFu₁ : WFsec u₁ := by
        have hst := (goc_part_step u cid scid pn (cleanTextOpt hd.text)
          (extract_authority e) (extract_source e)).2
        rw [hg] at hst
        exact WFsec_of_sections_eq hst hWFu
      have h₂ := process_sections_sim (findAllDesc (isTyped "DIV8" "SECTION") e)
        pid hWFu₁ hWFs hch hv
      have hunv : process_part e cid scid v =
          process_sections (findAllDesc (isTyped "DIV8" "SECTION") e) pid v := by
        simp only [process_part, hfc, hpn, hgv']
      rw [hun, hunv]
      have hagree : ValAgree u u₁ v v := by
        intro i
        right
        refine ⟨Eq.refl _, ?_⟩
        have hst := (goc_part_step u cid scid pn (cleanTextOpt hd.text)
          (extract_authority e) (extract_source e)).2
        rw [hg] at hst
        rw [hst]
      exact ⟨h₂.1, h₂.2.1, valAgree_trans hagree h₂.2.2⟩

theorem process_parts_sim : ∀ (es : List Elem) (cid : Nat) (scid : Option Nat)
    {s u v : DB}, WFsec u → WFsec s →
    DBLe (process_parts es cid scid u).2 s → Run2At s v →
    (process_parts es cid scid v).1 = (process_parts es cid scid u).1 ∧
    Run2At s (process_parts es cid scid v).2 ∧
    ValAgree u (process_parts es cid scid u).2 v (process_parts es cid scid v).2 := by
  intro es
  induction es with
  | nil =>
    intro cid scid s u v _ _ _ hv
    exact ⟨rfl, hv, valAgree_rfl⟩
  | cons e rest ih =>
    intro cid scid s u v hWFu hWFs hch hv
    rcases hp : process_part e cid scid u with ⟨n, u₁⟩
    rcases hr : process_parts rest cid scid u₁ with ⟨m, u₂⟩
    have hun : process_parts (e :: rest) cid scid u = (n + m, u₂) := by
      simp only [process_parts, hp, hr]
    rw [hun] at hch
    have hstep₂ := process_parts_step rest cid scid u₁
    rw [hr] at hstep₂
    have hch₁ : DBLe (process_part e cid scid u).2 s := by
      rw [hp]
      exact dbLe_trans hstep₂.1 hch
    have h₁ := process_part_sim e cid scid hWFu hWFs hch₁ hv
    rw [hp] at h₁
    rcases hpv : process_part e cid scid v with ⟨nv, v₁⟩
    rw [hpv] at h₁
    have hWFu₁ : WFsec u₁ := by
      have hst := (process_part_step e cid scid u).2
      rw [hp] at hst
      exact hst hWFu
    have hch₂ : DBLe (process_parts rest cid scid u₁).2 s := by
      rw [hr]
      exact hch
    have h₂ := ih cid scid hWFu₁ hWFs hch₂ h₁.2.1
    rcases hrv : process_parts rest cid scid v₁ with ⟨mv, v₂⟩
    rw [hrv, hr] at h₂
    have hunv : process_parts (e :: rest) cid scid v = (nv + mv, v₂) := by
      simp only [process_parts, hpv, hrv]
    rw [hun, hunv]
    have hn : nv = n := h₁.1
    have hm : mv = m := h₂.1
    rw [hn, hm]
    exact ⟨rfl, h₂.2.1, valAgree_trans h₁.2.2 h₂.2.2⟩

theorem process_subchapter_sim (e : Elem) (cid : Nat) {s u v : DB}
    (hch : DBLe (process_subchapter e cid u).2 s) (hv : Run2At s v) :
    process_subchapter e cid v = ((process_subchapter e cid u).1, v) := by
  cases hfc : findChild e "HEAD" with
  | none => simp only [process_subchapter, hfc]
  | some hd =>
    cases hsl : subchapterLetterOf (cleanTextOpt hd.text) (attrGet e "N") with
    | none => simp only [process_subchapter, hfc, hsl]
    | some letter =>
      rcases hg : get_or_create_subchapter u cid letter (cleanTextOpt hd.text)
        with ⟨sid, u₁⟩
      have hun : process_subchapter e cid u = (some sid, u₁) := by
        simp only [process_subchapter, hfc, hsl, hg]
      rw [hun] at hch
      have hchg : DBLe (get_or_create_subchapter u cid letter
          (cleanTextOpt hd.text)).2 s := by
        rw [hg]
        exact hch
      have hgv := goc_subchapter_sim cid letter (cleanTextOpt hd.text)
        (cleanTextOpt hd.text) hchg hv
      rw [hg] at hgv
      have hgv' : get_or_create_subchapter v cid letter (cleanTextOpt hd.text) =
          (sid, v) := hgv
      rw [hun]
      simp only [process_subchapter, hfc, hsl, hgv']

theorem process_subchapters_sim : ∀ (es : List Elem) (cid : Nat) {s u v : DB},
    WFsec u → WFsec s → DBLe (process_subchapters es cid u).2 s → Run2At s v →
    (process_subchapters es cid v).1 = (process_subchapters es cid u).1 ∧
    Run2At s (process_subchapters es cid v).2 ∧
    ValAgree u (process_subchapters es cid u).2 v (process_subchapters es cid v).2 := by
  intro es
  induction es with
  | nil =>
    intro cid s u v _ _ _ hv
    exact ⟨rfl, hv, valAgree_rfl⟩
  | cons e rest ih =>
    intro cid s u v hWFu hWFs hch hv
    rcases hp : process_subchapter e cid u with ⟨sidOpt, u₁⟩
    have hsecs : u₁.sections = u.sections := by
      have hst := (process_subchapter_step e cid u).2
      rw [hp] at hst
      exact hst
    have hWFu₁ : WFsec u₁ := WFsec_of_sections_eq hsecs hWFu
    have hagree : ValAgree u u₁ v v := by
      intro i
      right
      exact ⟨Eq.refl _, by rw [hsecs]⟩
    cases sidOpt with
    | some sid =>
      rcases hq : process_parts (findAllDesc (isTyped "DIV5" "PART") e) cid
          (some sid) u₁ with ⟨n, u₂⟩
      rcases hr : process_subchapters rest cid u₂ with ⟨m, u₃⟩
      have hun : process_subchapters (e :: rest) cid u = (n + m, u₃) := by
        simp only [process_subchapters, hp, hq, hr]
      rw [hun] at hch
      have hstep₃ := process_subchapters_step rest cid u₂
      rw [hr] at hstep₃
      have hstep₂ := process_parts_step (findAllDesc (isTyped "DIV5" "PART") e)
        cid (some sid) u₁
      rw [hq] at hstep₂
      have hchsub : DBLe (process_subchapter e cid u).2 s := by
        rw [hp]
        exact dbLe_trans hstep₂.1 (dbLe_trans hstep₃.1 hch)
      have hsub := process_subchapter_sim e cid hchsub hv
      rw [hp] at hsub
      have hsub' : process_subchapter e cid v = (some sid, v) := hsub
      have hchq : DBLe (process_parts (findAllDesc (isTyped "DIV5" "PART") e) cid
          (some sid) u₁).2 s := by
        rw [hq]
        exact dbLe_trans hstep₃.1 hch
      have h₂ := process_parts_sim (findAllDesc (isTyped "DIV5" "PART") e) cid
        (some sid) hWFu₁ hWFs hchq hv
      rcases hqv : process_parts (findAllDesc (isTyped "DIV5" "PART") e) cid
          (some sid) v with ⟨nv, v₂⟩
      rw [hqv, hq] at h₂
      have hWFu₂ : WFsec u₂ := by
        have hst := (process_parts_step (findAllDesc (isTyped "DIV5" "PART") e)
          cid (some sid) u₁).2
        rw [hq] at hst
        exact hst hWFu₁
      have hchr : DBLe (process_subchapters rest cid u₂).2 s := by
        rw [hr]
        exact hch
      have h₃ := ih cid hWFu₂ hWFs hchr h₂.2.1
      rcases hrv : process_subchapters rest cid v₂ with ⟨mv, v₃⟩
      rw [hrv, hr] at h₃
      have hunv : process_subchapters (e :: rest) cid v = (nv + mv, v₃) := by
        simp only [process_subchapters, hsub', hqv, hrv]
      rw [hun, hunv]
      have hn : nv = n := h₂.1
      have hm : mv = m := h₃.1
      rw [hn, hm]
      exact ⟨rfl, h₃.2.1,
        valAgree_trans hagree (valAgree_trans h₂.2.2 h₃.2.2)⟩
    | none =>
      rcases hr : process_subchapters rest cid u₁ with ⟨m, u₂⟩
      have hun : process_subchapters (e :: rest) cid u = (0 + m, u₂) := by
        simp only [process_subchapters, hp, hr]
      rw [hun] at hch
      have hstep₂ := process_subchapters_step rest cid u₁
      rw [hr] at hstep₂
      have hchsub : DBLe (process_subchapter e cid u).2 s := by
        rw [hp]
        exact dbLe_trans hstep₂.1 hch
      have hsub := process_subchapter_sim e cid hchsub hv
      rw [hp] at hsub
      have hsub' : process_subchapter e cid v = (none, v) := hsub
      have hchr : DBLe (process_subchapters rest cid u₁).2 s := by
        rw [hr]
        exact hch
      have h₃ := ih cid hWFu₁ hWFs hchr hv
      rcases hrv : process_subchapters rest cid v with ⟨mv, v₂⟩
      rw [hrv, hr] at h₃
      have hunv : process_subchapters (e :: rest) cid v = (0 + mv, v₂) := by
        simp only [process_subchapters, hsub', hrv]
      rw [hun, hunv]
      have hm : mv = m := h₃.1
      rw [hm]
      exact ⟨rfl, h₃.2.1, valAgree_trans hagree h₃.2.2⟩

theorem process_chapter_sim (e : Elem) (tid : Nat) {s u v : DB}
    (hch : DBLe (process_chapter e tid u).2 s) (hv : Run2At s v) :
    process_chapter e tid v = ((process_chapter e tid u).1, v) := by
  cases hfc : findChild e "HEAD" with
  | none => simp only [process_chapter, hfc]
  | some hd =>
    cases hcn : chapterNumberOf (cleanTextOpt hd.text) (attrGet e "N") with
    | none => simp only [process_chapter, hfc, hcn]
    | some num =>
      rcases hg : get_or_create_chapter u tid num (cleanTextOpt hd.text)
        with ⟨cid, u₁⟩
      have hun : process_chapter e tid u = (some cid, u₁) := by
        simp only [process_chapter, hfc, hcn, hg]
      rw [hun] at hch
      have hchg : DBLe (get_or_create_chapter u tid num (cleanTextOpt hd.text)).2
          s := by
        rw [hg]
        exact hch
      have hgv := goc_chapter_sim tid num (cleanTextOpt hd.text)
        (cleanTextOpt hd.text) hchg hv
      rw [hg] at hgv
      have hgv' : get_or_create_chapter v tid num (cleanTextOpt hd.text) =
          (cid, v) := hgv
      rw [hun]
      simp only [process_chapter, hfc, hcn, hgv']

theorem process_chapter_content_sim (e : Elem) (cid : Nat) {s u v : DB}
    (hWFu : WFsec u) (hWFs : WFsec s)
    (hch : DBLe (process_chapter_content e cid u).2 s) (hv : Run2At s v) :
    (process_chapter_content e cid v).1 = (process_chapter_content e cid u).1 ∧
    Run2At s (process_chapter_content e cid v).2 ∧
    ValAgree u (process_chapter_content e cid u).2
      v (process_chapter_content e cid v).2 := by
  rcases hsub : process_subchapters (findAllDesc (isTyped "DIV4" "SUBCHAP") e) cid u
    with ⟨n₁, u₁⟩
  rcases hq : process_parts (findDirect (isTyped "DIV5" "PART") e) cid none u₁
    with ⟨n₂, u₂⟩
  have hun : process_chapter_content e cid u = (n₁ + n₂, u₂) := by
    simp only [process_chapter_content, hsub, hq]
  rw [hun] at hch
  have hstep₂ := process_parts_step (findDirect (isTyped "DIV5" "PART") e) cid
    none u₁
  rw [hq] at hstep₂
  have hch₁ : DBLe (process_subchapters (findAllDesc (isTyped "DIV4" "SUBCHAP") e)
      cid u).2 s := by
    rw [hsub]
    exact dbLe_trans hstep₂.1 hch
  have h₁ := process_subchapters_sim (findAllDesc (isTyped "DIV4" "SUBCHAP") e)
    cid hWFu hWFs hch₁ hv
  rcases hsubv : process_subchapters (findAllDesc (isTyped "DIV4" "SUBCHAP") e)
      cid v with ⟨m₁, v₁⟩
  rw [hsubv, hsub] at h₁
  have hWFu₁ : WFsec u₁ := by
    have hst := (process_subchapters_step (findAllDesc (isTyped "DIV4" "SUBCHAP") e)
      cid u).2
    rw [hsub] at hst
    exact hst hWFu
  have hch₂ : DBLe (process_parts (findDirect (isTyped "DIV5" "PART") e) cid
      none u₁).2 s := by
    rw [hq]
    exact hch
  have h₂ := process_parts_sim (findDirect (isTyped "DIV5" "PART") e) cid none
    hWFu₁ hWFs hch₂ h₁.2.1
  rcases hqv : process_parts (findDirect (isTyped "DIV5" "PART") e) cid none v₁
    with ⟨m₂, v₂⟩
  rw [hqv, hq] at h₂
  have hunv : process_chapter_content e cid v = (m₁ + m₂, v₂) := by
    simp only [process_chapter_content, hsubv, hqv]
  rw [hun, hunv]
  have ha : m₁ = n₁ := h₁.1
  have hb : m₂ = n₂ := h₂.1
  rw [ha, hb]
  exact ⟨rfl, h₂.2.1, valAgree_trans h₁.2.2 h₂.2.2⟩

theorem process_chapters_sim : ∀ (es : List Elem) (tid : Nat) {s u v : DB},
    WFsec u → WFsec s → DBLe (process_chapters es tid u).2 s → Run2At s v →
    (process_chapters es tid v).1 = (process_chapters es tid u).1 ∧
    Run2At s (process_chapters es tid v).2 ∧
    ValAgree u (process_chapters es tid u).2 v (process_chapters es tid v).2 := by
  intro es
  induction es with
  | nil =>
    intro tid s u v _ _ _ hv
    exact ⟨rfl, hv, valAgree_rfl⟩
  | cons e rest ih =>
    intro tid s u v hWFu hWFs hch hv
    rcases hp : process_chapter e tid u with ⟨cidOpt, u₁⟩
    have hsecs : u₁.sections = u.sections := by
      have hst := (process_chapter_step e tid u).2
      rw [hp] at hst
      exact hst
    have hWFu₁ : WFsec u₁ := WFsec_of_sections_eq hsecs hWFu
    have hagree : ValAgree u u₁ v v := by
      intro i
      right
      exact ⟨Eq.refl _, by rw [hsecs]⟩
    cases cidOpt with
    | some cid =>
      rcases hq : process_chapter_content e cid u₁ with ⟨n, u₂⟩
      rcases hr : process_chapters rest tid u₂ with ⟨m, u₃⟩
      have hun : process_chapters (e :: rest) tid u = (n + m, u₃) := by
        simp only [process_chapters, hp, hq, hr]
      rw [hun] at hch
      have hstep₃ := process_chapters_step rest tid u₂
      rw [hr] at hstep₃
      have hstep₂ := process_chapter_content_step e cid u₁
      rw [hq] at hstep₂
      have hchc : DBLe (process_chapter e tid u).2 s := by
        rw [hp]
        exact dbLe_trans hstep₂.1 (dbLe_trans hstep₃.1 hch)
      have hc := process_chapter_sim e tid hchc hv
      rw [hp] at hc
      have hc' : process_chapter e tid v = (some cid, v) := hc
      have hchq : DBLe (process_chapter_content e cid u₁).2 s := by
        rw [hq]
        exact dbLe_trans hstep₃.1 hch
      have h₂ := process_chapter_content_sim e cid hWFu₁ hWFs hchq hv
      rcases hqv : process_chapter_content e cid v with ⟨nv, v₂⟩
      rw [hqv, hq] at h₂
      have hWFu₂ : WFsec u₂ := by
        have hst := (process_chapter_content_step e cid u₁).2
        rw [hq] at hst
        exact hst hWFu₁
      have hchr : DBLe (process_chapters rest tid u₂).2 s := by
        rw [hr]
        exact hch
      have h₃ := ih tid hWFu₂ hWFs hchr h₂.2.1
      rcases hrv : process_chapters rest tid v₂ with ⟨mv, v₃⟩
      rw [hrv, hr] at h₃
      have hunv : process_chapters (e :: rest) tid v = (nv + mv, v₃) := by
        simp only [process_chapters, hc', hqv, hrv]
      rw [hun, hunv]
      have hn : nv = n := h₂.1
      have hm : mv = m := h₃.1
      rw [hn, hm]
      exact ⟨rfl, h₃.2.1,
        valAgree_trans hagree (valAgree_trans h₂.2.2 h₃.2.2)⟩
    | none =>
      rcases hr : process_chapters rest tid u₁ with ⟨m, u₂⟩
      have hun : process_chapters (e :: rest) tid u = (0 + m, u₂) := by
        simp only [process_chapters, hp, hr]
      rw [hun] at hch
      have hstep₂ := process_chapters_step rest tid u₁
      rw [hr] at hstep₂
      have hchc : DBLe (process_chapter e tid u).2 s := by
        rw [hp]
        exact dbLe_trans hstep₂.1 hch
      have hc := process_chapter_sim e tid hchc hv
      rw [hp] at hc
      have hc' : process_chapter e tid v = (none, v) := hc
      have hchr : DBLe (process_chapters rest tid u₁).2 s := by
        rw [hr]
        exact hch
      have h₃ := ih tid hWFu₁ hWFs hchr hv
      rcases hrv : process_chapters rest tid v with ⟨mv, v₂⟩
      rw [hrv, hr] at h₃
      have hunv : process_chapters (e :: rest) tid v = (0 + mv, v₂) := by
        simp only [process_chapters, hc', hrv]
      rw [hun, hunv]
      have hm : mv = m := h₃.1
      rw [hm]
      exact ⟨rfl, h₃.2.1, valAgree_trans hagree h₃.2.2⟩

theorem parse_title_core_sim (root : Elem) (n : Int) (now now' : Nat) {s u v : DB}
    (hWFu : WFsec u) (hWFs : WFsec s)
    (hch : DBLe (parse_title_core root n now u).2 s) (hv : Run2At s v) :
    (parse_title_core root n now' v).1 = (parse_title_core root n now u).1 ∧
    Run2At s (parse_title_core root n now' v).2 ∧
    ValAgree u (parse_title_core root n now u).2
      v (parse_title_core root n now' v).2 := by
  rcases hg : get_or_create_title u n (titleNameOf root n) now with ⟨tid, u₁⟩
  have hun : parse_title_core root n now u =
      process_chapters (findAllDesc (isTyped "DIV3" "CHAPTER") root) tid u₁ := by
    simp only [parse_title_core, hg]
  rw [hun] at hch
  have hsecs : u₁.sections = u.sections := by
    have hst := (goc_title_step u n (titleNameOf root n) now).2
    rw [hg] at hst
    exact hst
  have hWFu₁ : WFsec u₁ := WFsec_of_sections_eq hsecs hWFu
  have hagree : ValAgree u u₁ v v := by
    intro i
    right
    exact ⟨Eq.refl _, by rw [hsecs]⟩
  have hchg : DBLe (get_or_create_title u n (titleNameOf root n) now).2 s := by
    rw [hg]
    exact dbLe_trans (process_chapters_step (findAllDesc (isTyped "DIV3" "CHAPTER") root)
      tid u₁).1 hch
  have hgv := goc_title_sim n (titleNameOf root n) (titleNameOf root n) now now'
    hchg hv
  rw [hg] at hgv
  have hgv' : get_or_create_title v n (titleNameOf root n) now' = (tid, v) := hgv
  have h₂ := process_chapters_sim (findAllDesc (isTyped "DIV3" "CHAPTER") root)
    tid hWFu₁ hWFs hch hv
  have hunv : parse_title_core root n now' v =
      process_chapters (findAllDesc (isTyped "DIV3" "CHAPTER") root) tid v := by
    simp only [parse_title_core, hgv']
  rw [hun, hunv]
  exact ⟨h₂.1, h₂.2.1, valAgree_trans hagree h₂.2.2⟩

/-- The entity tables of the store (the Ingestion Record table is
status metadata, not entity data). -/
def entityTables (db : DB) :
    List TitleRow × List ChapterRow × List SubchapterRow × List PartRow ×
      List SectionRow :=
  (db.titles, db.chapters, db.subchapters, db.parts, db.sections)

/-- C4: parsing the same document twice against the same store produces
identical row counts and identical row contents for every entity table —
the second run inserts no row at any level (Unit, Chapter, Subchapter,
Part, Section) and only re-applies the same Section field values — and
returns the same record count. -/
theorem parse_twice_idempotent :
    ∀ (root : Elem) (n : Int) (now now' fs fs' : Nat) (fh fh' : String) (c : Conn),
      WFsec c.current →
      entityTables (((parse_title_xml (.ok root) n now' fs' fh'
          (parse_title_xml (.ok root) n now fs fh c).2).2).current) =
        entityTables (((parse_title_xml (.ok root) n now fs fh c).2).current) ∧
      (parse_title_xml (.ok root) n now' fs' fh'
          (parse_title_xml (.ok root) n now fs fh c).2).1 =
        (parse_title_xml (.ok root) n now fs fh c).1 := by
  intro root n now now' fs fs' fh fh' c hWF
  rcases h1 : parse_title_core root n now (update_scraping_metadata c.current now
    n "in_progress" (some fs) (some fh) none 0) with ⟨records, d1⟩
  have hp1 : parse_title_xml (.ok root) n now fs fh c = (.ok records,
      ⟨update_scraping_metadata d1 now n "completed" (some fs) (some fh) none
        records,
       update_scraping_metadata d1 now n "completed" (some fs) (some fh) none
        records⟩) := by
    simp only [parse_title_xml, h1]
  have hWF₀ : WFsec (update_scraping_metadata c.current now n "in_progress"
      (some fs) (some fh) none 0) :=
    WFsec_of_sections_eq (Eq.refl _) hWF
  have hWFd1 : WFsec d1 := by
    have hst := (parse_title_core_step root n now (update_scraping_metadata
      c.current now n "in_progress" (some fs) (some fh) none 0)).2
    rw [h1] at hst
    exact hst hWF₀
  set d1m := update_scraping_metadata d1 now n "completed" (some fs) (some fh)
    none records with hd1m
  set db₀' := update_scraping_metadata d1m now' n "in_progress" (some fs')
    (some fh') none 0 with hdb₀
  have hrun2 : Run2At d1 db₀' :=
    ⟨Eq.refl _, Eq.refl _, Eq.refl _, Eq.refl _, Eq.refl _⟩
  have hch : DBLe (parse_title_core root n now (update_scraping_metadata
      c.current now n "in_progress" (some fs) (some fh) none 0)).2 d1 := by
    rw [h1]
    exact dbLe_refl d1
  have hsim := parse_title_core_sim root n now now' hWF₀ hWFd1 hch hrun2
  rcases h2 : parse_title_core root n now' db₀' with ⟨records₂, d2⟩
  rw [h2, h1] at hsim
  have hsecs : d2.sections = d1.sections := by
    apply List.ext_getElem?
    intro i
    rcases hsim.2.2 i with h | ⟨hv', hu'⟩
    · exact h
    · exact hv'
  have hp2 : parse_title_xml (.ok root) n now' fs' fh'
      ⟨d1m, d1m⟩ = (.ok records₂,
      ⟨update_scraping_metadata d2 now' n "completed" (some fs') (some fh') none
        records₂,
       update_scraping_metadata d2 now' n "completed" (some fs') (some fh') none
        records₂⟩) := by
    simp only [parse_title_xml]
    rw [show update_scraping_metadata (Conn.current ⟨d1m, d1m⟩) now' n
      "in_progress" (some fs') (some fh') none 0 = db₀' from rfl, h2]
  rw [hp1, hp2]
  constructor
  · show (d2.titles, d2.chapters, d2.subchapters, d2.parts, d2.sections) =
      (d1.titles, d1.chapters, d1.subchapters, d1.parts, d1.sections)
    rw [hsim.2.1.titles, hsim.2.1.chapters, hsim.2.1.subchapters,
      hsim.2.1.parts, hsecs]
  · show Except.ok records₂ = Except.ok records
    have hr : records₂ = records := hsim.1
    rw [hr]

def c4SampleDoc : Elem :=
  Elem.mk "ECFR" [] none
    [ Elem.mk "HEAD" [] (some "Title 7") [] none
    , Elem.mk "DIV3" [("TYPE", "CHAPTER"), ("N", "I")] none
        [ Elem.mk "HEAD" [] (some "CHAPTER I") [] none
        , Elem.mk "DIV5" [("TYPE", "PART"), ("N", "1")] none
            [ Elem.mk "HEAD" [] (some "PART 1") [] none
            , Elem.mk "DIV8" [("TYPE", "SECTION"), ("N", "§ 1.1")] none
                [ Elem.mk "HEAD" [] (some "§ 1.1 Scope.") [] none
                , Elem.mk "P" [] (some "Body.") [] none ] none ] none ] none ]
    none

theorem parse_twice_idempotent_witness :
    entityTables (((parse_title_xml (.ok c4SampleDoc) 7 200 11 "hh"
        (parse_title_xml (.ok c4SampleDoc) 7 100 10 "hg"
          ⟨emptyDB, emptyDB⟩).2).2).current) =
      entityTables (((parse_title_xml (.ok c4SampleDoc) 7 100 10 "hg"
        ⟨emptyDB, emptyDB⟩).2).current) ∧
    (parse_title_xml (.ok c4SampleDoc) 7 200 11 "hh"
        (parse_title_xml (.ok c4SampleDoc) 7 100 10 "hg"
          ⟨emptyDB, emptyDB⟩).2).1 =
      (parse_title_xml (.ok c4SampleDoc) 7 100 10 "hg"
        ⟨emptyDB, emptyDB⟩).1 :=
  parse_twice_idempotent c4SampleDoc 7 100 200 10 11 "hg" "hh" ⟨emptyDB, emptyDB⟩
    (fun i r h => by simp [emptyDB] at h)

end ECFR
